import Mathlib

/-!
# Verification model of `src/core/timeline.rs` (dl-sim-rust)

The Rust source implements a discrete-event timeline:

* `Timeline { time: Cell<f64>, queue: RefCell<BinaryHeap<Rc<Trigger>>> }`
* `Trigger { time: f64, action: RefCell<Box<dyn FnMut()>>, cancelled: Cell<bool> }`
* `Trigger` is ordered by `time` alone, reversed (`other.time.partial_cmp(&self.time)`),
  so the max-heap `BinaryHeap` pops the trigger with the smallest `time` first.
* `schedule(delay, action)` pushes a trigger due at `time + delay` (no validation of
  `delay`) and returns a `Weak` handle; `run()` repeatedly pops, skips cancelled
  triggers, otherwise sets the clock to the popped trigger's time and invokes its action.

Embedding choices:

* Finite `f64` values are modelled by an arbitrary `LinearOrderedAddCommGroup` time type
  `T` (addition exact; floating-point rounding is not modelled).  Concrete witnesses
  instantiate `T := ℤ`, i.e. integral `f64` values.  The `f64` NaN value, on which the
  trigger comparison panics, is modelled separately (`FTime` below) for the
  panic-totality analysis.
* `BinaryHeap` is translated operation-by-operation from the Rust standard library:
  `push` appends and sifts up; `pop` swaps the root with the last element and sifts the
  new root down to the bottom along the greater-child path (ties pick the right child)
  and then sifts it back up.  The heap stores `(time, id)` pairs; the `time` component
  is the trigger's immutable `time` field (so comparing cached pairs agrees with
  comparing the `Rc<Trigger>`s), the `id` is the arrival index of the trigger.
* The `Rc`/`Weak` structure is modelled by an association list `store` from ids to
  trigger records: an id is in `store` exactly while a strong reference exists (in the
  queue, or popped and currently executing); `Weak::upgrade` is a `store` lookup.
* Actions are deep-embedded (`Act`): a finite sequence of reentrant `schedule` and
  `cancel` calls against the owning timeline, which is the interaction surface the
  source gives to closures (they can reach the timeline only through `schedule` /
  handle cancellation).
* `run` is modelled with explicit fuel (`runAux`); the Rust loop need not terminate
  when actions keep scheduling, and `runAux … = some _` expresses a terminating run.
* The `executed` / `discarded` fields are observation-only traces recording which
  triggers `run` invoked (with the clock value at invocation) and which it dropped as
  cancelled; they model the externally visible sequence of action invocations.
-/

/-! ## Generic list helpers and the Rust `BinaryHeap` algorithms -/

/-- Indexing with an explicit default, `l[i]` in the Rust vector (always in range
where the heap code uses it). -/
def gd {α : Type} (d : α) (l : List α) (i : ℕ) : α := l[i]?.getD d

/-- Swap two positions of a list (identity if either index is out of range). -/
def swapL {α : Type} (l : List α) (i j : ℕ) : List α :=
  match l[i]?, l[j]? with
  | some a, some b => (l.set i b).set j a
  | _, _ => l

/-- Rust `BinaryHeap::sift_up(start = 0, pos)`: bubble the element at `pos` towards
the root while it is strictly greater than its parent.  The hole optimisation of the
Rust code is rendered as explicit swaps, which leave the same final array.  The loop
is written with explicit fuel to keep it structurally recursive (kernel-reducible);
`fuel = pos` always suffices because the position at least halves each step. -/
def siftUpGo {α : Type} (d : α) (le : α → α → Bool) : ℕ → List α → ℕ → List α
  | 0, l, _ => l
  | _+1, l, 0 => l
  | fuel+1, l, pos+1 =>
    if le (gd d l (pos+1)) (gd d l (pos / 2)) then l
    else siftUpGo d le fuel (swapL l (pos / 2) (pos+1)) (pos / 2)

/-- Rust `BinaryHeap::sift_up(start = 0, pos)`. -/
def siftUp {α : Type} (d : α) (le : α → α → Bool) (l : List α) (pos : ℕ) : List α :=
  siftUpGo d le pos l pos

/-- The walk phase of Rust `BinaryHeap::sift_down_to_bottom(0)`: move the hole to the
bottom of the heap, always descending to the greater child (on ties, the right child:
`child += (hole.get(child) <= hole.get(child + 1)) as usize`).  Returns the updated
array and the final hole position.  `fuel` only bounds the loop; `l.length` steps
always suffice because the position strictly increases. -/
def sdbGo {α : Type} (d : α) (le : α → α → Bool) : ℕ → List α → ℕ → List α × ℕ
  | 0, l, pos => (l, pos)
  | fuel+1, l, pos =>
    let c := 2*pos+1
    if c + 2 ≤ l.length then
      let c' := if le (gd d l c) (gd d l (c+1)) then c+1 else c
      sdbGo d le fuel (swapL l pos c') c'
    else if c + 1 = l.length then (swapL l pos c, c)
    else (l, pos)

/-- Rust `BinaryHeap::sift_down_to_bottom(0)`: walk the hole to the bottom, then sift
the displaced element back up. -/
def siftDownToBottom {α : Type} (d : α) (le : α → α → Bool) (l : List α) : List α :=
  let r := sdbGo d le l.length l 0
  siftUp d le r.1 r.2

/-- Rust `BinaryHeap::push`: append, then sift up from the last position. -/
def heapPush {α : Type} (d : α) (le : α → α → Bool) (l : List α) (x : α) : List α :=
  siftUp d le (l ++ [x]) l.length

/-- Rust `BinaryHeap::pop`: remove the last element; if the heap is still nonempty,
swap it with the root and sift the new root down.  Returns the popped maximum and the
remaining heap. -/
def heapPop {α : Type} (d : α) (le : α → α → Bool) (l : List α) : Option (α × List α) :=
  match l.getLast? with
  | none => none
  | some lastE =>
    let rest := l.dropLast
    if rest.isEmpty then some (lastE, [])
    else some (gd d rest 0, siftDownToBottom d le (rest.set 0 lastE))

/-! ## The binary-heap invariant and correctness of the sift operations -/

/-- Index of the parent of heap slot `i` in the array layout. -/
def parentIdx (i : ℕ) : ℕ := (i-1)/2

/-- The max-heap invariant of Rust's `BinaryHeap`: every non-root slot compares `<=`
its parent slot. -/
def heapInvP {α : Type} (d : α) (le : α → α → Bool) (l : List α) : Prop :=
  ∀ i, 0 < i → i < l.length → le (gd d l i) (gd d l (parentIdx i)) = true

/-! ## The timeline model -/

/-- Deep embedding of the closures handed to `schedule`: a finite sequence of
reentrant calls against the owning timeline.  `sched d a k` performs
`timeline.schedule(d, a)` and continues with `k`; `cancelA h k` upgrades the weak
handle of the trigger with arrival id `h` and, when still alive, cancels it, then
continues with `k`; `done` returns. -/
inductive Act (T : Type) where
  | done : Act T
  | sched : T → Act T → Act T → Act T
  | cancelA : ℕ → Act T → Act T
deriving DecidableEq

/-- Rust `struct Trigger { time, action, cancelled }`.  `time` is immutable after
creation; `cancelled` is a `Cell<bool>`. -/
structure Trigger (T : Type) where
  time : T
  action : Act T
  cancelled : Bool
deriving DecidableEq

/-- The timeline state.  `time` and `heap` are `Timeline { time, queue }` of the
source; the heap caches each pending trigger's immutable `time` next to its arrival
id.  `store` holds the trigger records that are still strongly referenced; `nextId`
is the next arrival index; `executed`/`discarded` are observation-only traces. -/
structure Timeline (T : Type) where
  time : T
  heap : List (T × ℕ)
  store : List (ℕ × Trigger T)
  nextId : ℕ
  executed : List (T × ℕ)
  discarded : List (T × ℕ)
deriving DecidableEq

/-- The `Trigger` comparison of the source, on the cached `(time, id)` pairs:
`self <= other  ↔  other.time.partial_cmp(&self.time) != Greater  ↔  other.1 ≤ self.1`.
The arrival id is ignored, exactly as the Rust `impl Ord for Trigger` ignores
everything but `time`. -/
def trLe {T : Type} [LinearOrder T] (a b : T × ℕ) : Bool := decide (b.1 ≤ a.1)

/-- Association-list lookup: `Weak::upgrade` for the handle `i`. -/
def sLookup {T : Type} : List (ℕ × Trigger T) → ℕ → Option (Trigger T)
  | [], _ => none
  | (j, tr) :: r, i => if j = i then some tr else sLookup r i

/-- Replace the record of id `i` (used to flip its `cancelled` cell). -/
def sSet {T : Type} : List (ℕ × Trigger T) → ℕ → Trigger T → List (ℕ × Trigger T)
  | [], _, _ => []
  | (j, tr) :: r, i, tr' => if j = i then (j, tr') :: r else (j, tr) :: sSet r i tr'

/-- Drop the record of id `i` (the strong reference is released). -/
def sRemove {T : Type} : List (ℕ × Trigger T) → ℕ → List (ℕ × Trigger T)
  | [], _ => []
  | (j, tr) :: r, i => if j = i then r else (j, tr) :: sRemove r i

/-- `Timeline::new()`: clock 0, empty queue. -/
def newTimeline (T : Type) [LinearOrderedAddCommGroup T] : Timeline T :=
  ⟨0, [], [], 0, [], []⟩

/-- `Timeline::schedule(delay, action)`: build a trigger due at `time + delay`
(no validation of `delay` whatsoever), push a strong reference onto the queue, and
return the weak handle — modelled by the arrival id.  The Rust source performs no
check against `delay < 0` and has no error path. -/
def schedule {T : Type} [LinearOrderedAddCommGroup T] (s : Timeline T) (delay : T)
    (action : Act T) : Timeline T × ℕ :=
  let t := s.time + delay
  ({ s with
      heap := heapPush (0, 0) trLe s.heap (t, s.nextId)
      store := (s.nextId, ⟨t, action, false⟩) :: s.store
      nextId := s.nextId + 1 },
   s.nextId)

/-- `handle.upgrade()` followed by `Trigger::cancel()` on success: if the trigger is
still strongly referenced, set its `cancelled` cell; a stale handle is a silent
no-op (upgrading fails, nothing is called). -/
def cancelOp {T : Type} (s : Timeline T) (h : ℕ) : Timeline T :=
  match sLookup s.store h with
  | none => s
  | some tr => { s with store := sSet s.store h { tr with cancelled := true } }

/-- `Weak::upgrade` on a handle: succeeds exactly while a strong reference exists. -/
def upgradeH {T : Type} (s : Timeline T) (h : ℕ) : Option (Trigger T) :=
  sLookup s.store h

/-- Run one deep-embedded action body against the timeline. -/
def execAct {T : Type} [LinearOrderedAddCommGroup T] : Act T → Timeline T → Timeline T
  | .done, s => s
  | .sched dl a k, s => execAct k (schedule s dl a).1
  | .cancelA h k, s => execAct k (cancelOp s h)

/-- The loop body of `Timeline::run`, with explicit fuel.  Each iteration pops the
queue; on `None` it returns.  A cancelled trigger is dropped (strong reference
released) without touching the clock.  Otherwise the clock is set to the trigger's
`time`, its action is invoked (the trigger stays strongly referenced, as the local
`next` of the Rust loop), and the trigger is dropped when the iteration ends.
`none` means the fuel ran out before the queue drained. -/
def runAux {T : Type} [LinearOrderedAddCommGroup T] : ℕ → Timeline T → Option (Timeline T)
  | 0, _ => none
  | fuel+1, s =>
    match heapPop (0, 0) trLe s.heap with
    | none => some s
    | some (p, h') =>
      match sLookup s.store p.2 with
      | none => runAux fuel { s with heap := h' }
      | some tr =>
        if tr.cancelled then
          runAux fuel { s with
            heap := h'
            store := sRemove s.store p.2
            discarded := s.discarded ++ [(tr.time, p.2)] }
        else
          let s₁ := { s with
            heap := h'
            time := tr.time
            executed := s.executed ++ [(tr.time, p.2)] }
          let s₂ := execAct tr.action s₁
          runAux fuel { s₂ with store := sRemove s₂.store p.2 }

/-- `Timeline::now()`. -/
def nowT {T : Type} (s : Timeline T) : T := s.time

/-- Schedule a whole list of `(delay, action)` pairs from the left. -/
def mkTimeline {T : Type} [LinearOrderedAddCommGroup T] (items : List (T × Act T)) :
    Timeline T :=
  items.foldl (fun s it => (schedule s it.1 it.2).1) (newTimeline T)

/-! ## Well-formedness of timeline states -/

/-- Arrival ids currently in the queue. -/
def heapIds {T : Type} (h : List (T × ℕ)) : List ℕ := h.map Prod.snd

/-- Arrival ids with a live (strongly referenced) trigger record. -/
def storeIds {T : Type} (st : List (ℕ × Trigger T)) : List ℕ := st.map Prod.fst

/-- All delays an action will ever request (including by nested scheduled actions)
are non-negative. -/
def Act.nonneg {T : Type} [LinearOrderedAddCommGroup T] : Act T → Bool
  | .done => true
  | .sched dl a k => decide (0 ≤ dl) && a.nonneg && k.nonneg
  | .cancelA _ k => k.nonneg

/-- Structural well-formedness of a timeline state, with an optional id `X` that may
be live in the store without being queued (the trigger currently being executed by
`run`, whose strong reference lives in the loop-local `next`). -/
structure WFx {T : Type} (s : Timeline T) (X : Option ℕ) : Prop where
  heapNodup : (heapIds s.heap).Nodup
  storeNodup : (storeIds s.store).Nodup
  heapBound : ∀ p ∈ s.heap, p.2 < s.nextId
  storeBound : ∀ q ∈ s.store, q.1 < s.nextId
  align : ∀ p ∈ s.heap, ∃ tr, sLookup s.store p.2 = some tr ∧ tr.time = p.1
  inQueue : ∀ q ∈ s.store, some q.1 = X ∨ ∃ t, (t, q.1) ∈ s.heap

/-- Well-formedness between `run` iterations and outside `run`: every strong
reference is held by the queue. -/
def WFq {T : Type} (s : Timeline T) : Prop := WFx s none

/-! ## Effect of running one action body -/

/-- Every pending entry is due at or after the current clock. -/
def pendingGE {T : Type} [LinearOrderedAddCommGroup T] (s : Timeline T) : Prop :=
  ∀ p ∈ s.heap, s.time ≤ p.1

/-- Every live action only requests non-negative delays. -/
def storeNonneg {T : Type} [LinearOrderedAddCommGroup T] (s : Timeline T) : Prop :=
  ∀ q ∈ s.store, q.2.action.nonneg = true

/-- How a state evolves under reentrant `schedule`/`cancel` calls: the clock and the
traces are untouched, fresh ids are handed out in order, the queue gains exactly the
fresh ids, and live records only ever get their `cancelled` flag raised. -/
structure ExecRel {T : Type} (s s₂ : Timeline T) : Prop where
  time_eq : s₂.time = s.time
  executed_eq : s₂.executed = s.executed
  discarded_eq : s₂.discarded = s.discarded
  nextId_le : s.nextId ≤ s₂.nextId
  heapIds_perm : (heapIds s₂.heap).Perm
    (heapIds s.heap ++ List.range' s.nextId (s₂.nextId - s.nextId))
  lookup_mono : ∀ j (tr : Trigger T), j < s.nextId → sLookup s.store j = some tr →
    ∃ tr', sLookup s₂.store j = some tr' ∧ tr'.time = tr.time ∧
      tr'.action = tr.action ∧ (tr.cancelled = true → tr'.cancelled = true)

/-- What a completed (fuel-sufficient) `run` guarantees, relative to its start state:
the queue is drained; the id of every entry pending at the start and of every entry
scheduled during the run is consumed exactly once, either executed or discarded;
entries cancelled at the start are never executed; and an executed entry is recorded
at the due time its trigger held at the start. -/
structure RunRel {T : Type} (s s' : Timeline T) : Prop where
  wf' : WFq s'
  heapNil : s'.heap = []
  exec_ext : ∃ tl, s'.executed = s.executed ++ tl
  disc_ext : ∃ tl, s'.discarded = s.discarded ++ tl
  nextId_le : s.nextId ≤ s'.nextId
  drain : ((s'.executed.drop s.executed.length).map Prod.snd ++
           (s'.discarded.drop s.discarded.length).map Prod.snd).Perm
          (heapIds s.heap ++ List.range' s.nextId (s'.nextId - s.nextId))
  cancelSkip : ∀ i (tr : Trigger T), sLookup s.store i = some tr → tr.cancelled = true →
    i ∉ (s'.executed.drop s.executed.length).map Prod.snd
  execTime : ∀ e ∈ s'.executed.drop s.executed.length, ∀ tr : Trigger T,
    sLookup s.store e.2 = some tr → e.1 = tr.time

/-! ## The ordering behaviour of `run` -/

/-- The ordering invariant of a timeline state: well-formed, the queue is a heap, all
pending entries are due at or after the clock, all live actions are non-negative, and
the executed trace is sorted by time and bounded by the clock. -/
structure InvB {T : Type} [LinearOrderedAddCommGroup T] (s : Timeline T) : Prop where
  wf : WFq s
  hinv : heapInvP (0, 0) trLe s.heap
  pend : pendingGE s
  nonneg : storeNonneg s
  sorted : List.Pairwise (fun a b : T × ℕ => a.1 ≤ b.1) s.executed
  bound : ∀ e ∈ s.executed, e.1 ≤ s.time

/-- What a completed `run` guarantees about order and the clock. -/
structure RunRelB {T : Type} [LinearOrderedAddCommGroup T] (s s' : Timeline T) : Prop where
  invB' : InvB s'
  time_mono : s.time ≤ s'.time
  exec_ext : ∃ tl, s'.executed = s.executed ++ tl
  noExec : s'.executed = s.executed → s'.time = s.time
  lastExec : s'.executed ≠ s.executed →
    ∃ e, s'.executed.getLast? = some e ∧ e.1 = s'.time

/-!
### Partial (IEEE-754-style) due times

`f64` due times admit NaN, which `partial_cmp` leaves unordered against
everything.  `FTime T` adjoins such an absorbing `nan` to the total order `T`:
`fPcmp` is `f64::partial_cmp` (`none` iff either side is NaN), `fAdd` is `f64`
addition restricted to the NaN-propagation behaviour relevant here.
`trigPcmp a b = fPcmp b.time a.time` is `Trigger`'s hand-written reversed
`PartialOrd::partial_cmp`; `trigCmpO` is `Ord::cmp`, whose `.unwrap()` panic is
modelled by `none`; `trigLeF` is the default `PartialOrd::le`
(`matches!(partial_cmp, Some(Less | Equal))`) — the comparison the standard
library's `BinaryHeap` sift routines actually invoke, via the `<=` operator.
-/

inductive FTime (T : Type) where
  | fin : T → FTime T
  | nan : FTime T
deriving DecidableEq

def fPcmp {T : Type} [LinearOrder T] : FTime T → FTime T → Option Ordering
  | FTime.fin a, FTime.fin b => some (compare a b)
  | _, _ => none

def fAdd {T : Type} [Add T] : FTime T → FTime T → FTime T
  | FTime.fin a, FTime.fin b => FTime.fin (a + b)
  | _, _ => FTime.nan

def trigPcmp {T : Type} [LinearOrder T] (a b : FTime T × ℕ) : Option Ordering :=
  fPcmp b.1 a.1

def trigCmpO {T : Type} [LinearOrder T] (a b : FTime T × ℕ) : Option Ordering :=
  trigPcmp a b

def trigLeF {T : Type} [LinearOrder T] (a b : FTime T × ℕ) : Bool :=
  match trigPcmp a b with
  | some Ordering.lt => true
  | some Ordering.eq => true
  | _ => false

/-! ## Generic lemmas: swapping, permutation, indexing -/

theorem gd_eq_of_getElem? {α : Type} {d : α} {l : List α} {i : ℕ} {a : α}
    (h : l[i]? = some a) : gd d l i = a := by simp [gd, h]

theorem length_swapL {α : Type} (l : List α) (i j : ℕ) :
    (swapL l i j).length = l.length := by
  unfold swapL
  cases h₁ : l[i]? <;> cases h₂ : l[j]? <;> simp

theorem cons_set_perm {α : Type} :
    ∀ (t : List α) (m : ℕ) (h b : α), t[m]? = some b → (b :: t.set m h).Perm (h :: t) := by
  intro t
  induction t with
  | nil => intro m h b hb; simp at hb
  | cons c t' ih =>
    intro m h b hb
    cases m with
    | zero =>
      simp only [List.getElem?_cons_zero, Option.some_inj] at hb
      subst hb
      exact List.Perm.swap h c t'
    | succ m =>
      have ih' := ih m h b (by simpa using hb)
      simp only [List.set]
      exact ((List.Perm.swap c b _).trans (ih'.cons c)).trans (List.Perm.swap h c t')

theorem set_set_get_perm {α : Type} :
    ∀ (l : List α) (i j : ℕ) (a b : α), l[i]? = some a → l[j]? = some b →
      ((l.set i b).set j a).Perm l := by
  intro l
  induction l with
  | nil => intro i j a b h _; simp at h
  | cons c t ih =>
    intro i j a b h₁ h₂
    cases i with
    | zero =>
      simp only [List.getElem?_cons_zero, Option.some_inj] at h₁
      subst h₁
      cases j with
      | zero =>
        simp only [List.getElem?_cons_zero, Option.some_inj] at h₂
        subst h₂
        simp [List.set]
      | succ m =>
        simp only [List.set]
        exact cons_set_perm t m c b (by simpa using h₂)
    | succ n =>
      cases j with
      | zero =>
        simp only [List.getElem?_cons_zero, Option.some_inj] at h₂
        subst h₂
        simp only [List.set]
        exact cons_set_perm t n c a (by simpa using h₁)
      | succ m =>
        simp only [List.set]
        exact (ih n m a b (by simpa using h₁) (by simpa using h₂)).cons c

theorem swapL_perm {α : Type} (l : List α) (i j : ℕ) : (swapL l i j).Perm l := by
  unfold swapL
  cases h₁ : l[i]? <;> cases h₂ : l[j]? <;> simp only []
  case some.some a b => exact set_set_get_perm l i j a b h₁ h₂
  all_goals exact List.Perm.refl l

theorem swapL_getElem?_other {α : Type} (l : List α) (i j k : ℕ) (hk₁ : k ≠ i) (hk₂ : k ≠ j) :
    (swapL l i j)[k]? = l[k]? := by
  unfold swapL
  cases h₁ : l[i]? <;> cases h₂ : l[j]? <;> simp only []
  case some.some a b =>
    rw [List.getElem?_set_ne (Ne.symm hk₂), List.getElem?_set_ne (Ne.symm hk₁)]

theorem swapL_getElem?_left {α : Type} {l : List α} {i j : ℕ} {a b : α} (h₁ : l[i]? = some a)
    (h₂ : l[j]? = some b) (hij : i ≠ j) : (swapL l i j)[i]? = some b := by
  have hi : i < l.length := (List.getElem?_eq_some_iff.mp h₁).1
  unfold swapL
  rw [h₁, h₂]
  simp only []
  rw [List.getElem?_set_ne (Ne.symm hij), List.getElem?_set_self]
  simpa using hi

theorem swapL_getElem?_right {α : Type} {l : List α} {i j : ℕ} {a b : α} (h₁ : l[i]? = some a)
    (h₂ : l[j]? = some b) : (swapL l i j)[j]? = some a := by
  have hj : j < l.length := (List.getElem?_eq_some_iff.mp h₂).1
  unfold swapL
  rw [h₁, h₂]
  simp only []
  rw [List.getElem?_set_self]
  simpa using hj

theorem getElem?_eq_some_gd {α : Type} (d : α) (l : List α) (i : ℕ) (h : i < l.length) :
    l[i]? = some (gd d l i) := by
  rw [List.getElem?_eq_getElem h]
  simp [gd, List.getElem?_eq_getElem h]

theorem gd_swapL_left {α : Type} (d : α) {l : List α} {i j : ℕ} (hi : i < l.length)
    (hj : j < l.length) (hij : i ≠ j) : gd d (swapL l i j) i = gd d l j :=
  gd_eq_of_getElem?
    (swapL_getElem?_left (getElem?_eq_some_gd d l i hi) (getElem?_eq_some_gd d l j hj) hij)

theorem gd_swapL_right {α : Type} (d : α) {l : List α} {i j : ℕ} (hi : i < l.length)
    (hj : j < l.length) : gd d (swapL l i j) j = gd d l i :=
  gd_eq_of_getElem?
    (swapL_getElem?_right (getElem?_eq_some_gd d l i hi) (getElem?_eq_some_gd d l j hj))

theorem gd_swapL_other {α : Type} (d : α) {l : List α} {i j k : ℕ} (hk₁ : k ≠ i)
    (hk₂ : k ≠ j) : gd d (swapL l i j) k = gd d l k := by
  simp [gd, swapL_getElem?_other l i j k hk₁ hk₂]

theorem parentIdx_succ (q : ℕ) : parentIdx (q+1) = q/2 := by simp [parentIdx]

theorem parentIdx_lt {i : ℕ} (h : 0 < i) : parentIdx i < i := by
  unfold parentIdx
  omega

theorem parentIdx_children {i p : ℕ} (h0 : 0 < i) (h : parentIdx i = p) :
    i = 2*p+1 ∨ i = 2*p+2 := by
  unfold parentIdx at h
  omega

section HeapLemmas

variable {α : Type} (d : α) (le : α → α → Bool)

theorem siftUpGo_perm : ∀ (fuel : ℕ) (l : List α) (pos : ℕ),
    (siftUpGo d le fuel l pos).Perm l := by
  intro fuel
  induction fuel with
  | zero => intro l pos; exact List.Perm.refl l
  | succ fuel ih =>
    intro l pos
    cases pos with
    | zero => exact List.Perm.refl l
    | succ q =>
      show (if le (gd d l (q+1)) (gd d l (q / 2)) = true then l
            else siftUpGo d le fuel (swapL l (q / 2) (q+1)) (q / 2)).Perm l
      split
      · exact List.Perm.refl l
      · exact (ih _ _).trans (swapL_perm l (q / 2) (q+1))

theorem length_siftUpGo (fuel : ℕ) (l : List α) (pos : ℕ) :
    (siftUpGo d le fuel l pos).length = l.length :=
  (siftUpGo_perm d le fuel l pos).length_eq

theorem siftUpGo_inv
    (htot : ∀ a b, le a b = true ∨ le b a = true)
    (htrans : ∀ a b c, le a b = true → le b c = true → le a c = true) :
    ∀ (fuel : ℕ) (l : List α) (pos : ℕ), pos ≤ fuel → pos < l.length →
      (∀ i, 0 < i → i < l.length → i ≠ pos → le (gd d l i) (gd d l (parentIdx i)) = true) →
      (∀ i, i < l.length → parentIdx i = pos → 0 < pos →
        le (gd d l i) (gd d l (parentIdx pos)) = true) →
      heapInvP d le (siftUpGo d le fuel l pos) := by
  intro fuel
  induction fuel with
  | zero =>
    intro l pos hle _ h1 _
    have hp : pos = 0 := by omega
    subst hp
    intro i h0 hi
    exact h1 i h0 hi (by omega)
  | succ fuel ih =>
    intro l pos hle hlen h1 h2
    cases pos with
    | zero =>
      intro i h0 hi
      exact h1 i h0 hi (by omega)
    | succ q =>
      show heapInvP d le (if le (gd d l (q+1)) (gd d l (q / 2)) = true then l
            else siftUpGo d le fuel (swapL l (q / 2) (q+1)) (q / 2))
      by_cases hc : le (gd d l (q+1)) (gd d l (q / 2)) = true
      · rw [if_pos hc]
        intro i h0 hi
        rcases eq_or_ne i (q+1) with rfl | hne
        · rw [parentIdx_succ]
          exact hc
        · exact h1 i h0 hi hne
      · rw [if_neg hc]
        -- the displaced element is strictly greater than its parent; swap and recurse
        have hw : le (gd d l (q / 2)) (gd d l (q+1)) = true := by
          rcases htot (gd d l (q+1)) (gd d l (q / 2)) with h | h
          · exact absurd h hc
          · exact h
        have hpar : q / 2 < q + 1 := by omega
        have hparlen : q / 2 < l.length := by omega
        have hL : (swapL l (q / 2) (q+1)).length = l.length := length_swapL l _ _
        -- values in the swapped list
        have vL : gd d (swapL l (q / 2) (q+1)) (q / 2) = gd d l (q+1) :=
          gd_swapL_left d hparlen hlen (by omega)
        have vR : gd d (swapL l (q / 2) (q+1)) (q+1) = gd d l (q / 2) :=
          gd_swapL_right d hparlen hlen
        have vO : ∀ k, k ≠ q / 2 → k ≠ q + 1 →
            gd d (swapL l (q / 2) (q+1)) k = gd d l k := fun k hk₁ hk₂ =>
          gd_swapL_other d hk₁ hk₂
        apply ih (swapL l (q / 2) (q+1)) (q / 2) (by omega) (by omega)
        · -- invariant except at the new position q/2
          intro i h0 hi hne
          rw [hL] at hi
          rcases eq_or_ne i (q+1) with rfl | hip
          · rw [parentIdx_succ, vR, vL]
            exact hw
          · rcases eq_or_ne (parentIdx i) (q+1) with hpi | hpi
            · -- i is a child of the old position q+1
              rw [vO i hne hip, hpi, vR]
              have := h2 i hi (by rw [hpi]) (by omega)
              rwa [parentIdx_succ] at this
            · rcases eq_or_ne (parentIdx i) (q / 2) with hpi2 | hpi2
              · -- i is a sibling (or child) of the swapped pair under q/2
                rw [vO i hne hip, hpi2, vL]
                have hbase := h1 i h0 hi hip
                rw [hpi2] at hbase
                exact htrans _ _ _ hbase hw
              · rw [vO i hne hip, vO _ hpi2 hpi]
                exact h1 i h0 hi hip
        · -- skip-level condition for the new position q/2
          intro i hi hpi hq2
          rw [hL] at hi
          have hg : gd d (swapL l (q / 2) (q+1)) (parentIdx (q / 2)) = gd d l (parentIdx (q / 2)) := by
            apply vO
            · have := parentIdx_lt hq2
              omega
            · have := parentIdx_lt hq2
              omega
          have hwg : le (gd d l (q / 2)) (gd d l (parentIdx (q / 2))) = true :=
            h1 (q / 2) hq2 hparlen (by omega)
          rcases eq_or_ne i (q+1) with rfl | hip
          · rw [vR, hg]
            exact hwg
          · have hipar : i ≠ q / 2 := by
              intro h
              subst h
              have := parentIdx_lt hq2
              omega
            rw [vO i hipar hip, hg]
            have h0i : 0 < i := by
              rcases Nat.eq_zero_or_pos i with rfl | h
              · simp [parentIdx] at hpi
                omega
              · exact h
            have hbase := h1 i h0i hi hip
            rw [hpi] at hbase
            exact htrans _ _ _ hbase hwg

theorem sdbGo_perm : ∀ (fuel : ℕ) (l : List α) (pos : ℕ),
    ((sdbGo d le fuel l pos).1).Perm l := by
  intro fuel
  induction fuel with
  | zero => intro l pos; exact List.Perm.refl l
  | succ fuel ih =>
    intro l pos
    show (if 2*pos+1 + 2 ≤ l.length then
            sdbGo d le fuel
              (swapL l pos (if le (gd d l (2*pos+1)) (gd d l (2*pos+1+1)) = true
                then 2*pos+1+1 else 2*pos+1))
              (if le (gd d l (2*pos+1)) (gd d l (2*pos+1+1)) = true then 2*pos+1+1 else 2*pos+1)
          else if 2*pos+1 + 1 = l.length then (swapL l pos (2*pos+1), 2*pos+1)
          else (l, pos)).1.Perm l
    split
    · exact (ih _ _).trans (swapL_perm l pos _)
    · split
      · exact swapL_perm l pos _
      · exact List.Perm.refl l

/-- Correctness of the hole walk of `sift_down_to_bottom`: starting from a hole
position whose non-hole edges satisfy the heap property (`W1`) and whose children are
bounded by the hole's parent (`W2`), the walk ends at a position with no children,
with `W1` still holding there. -/
theorem sdbGo_spec
    (htot : ∀ a b, le a b = true ∨ le b a = true)
    (htrans : ∀ a b c, le a b = true → le b c = true → le a c = true) :
    ∀ (fuel : ℕ) (l : List α) (pos : ℕ), pos < l.length → l.length ≤ fuel + pos →
      (∀ i, 0 < i → i < l.length → i ≠ pos → parentIdx i ≠ pos →
        le (gd d l i) (gd d l (parentIdx i)) = true) →
      (∀ i, i < l.length → parentIdx i = pos → i ≠ pos → 0 < pos →
        le (gd d l i) (gd d l (parentIdx pos)) = true) →
      (sdbGo d le fuel l pos).1.length = l.length ∧
      (sdbGo d le fuel l pos).2 < l.length ∧
      l.length ≤ 2 * (sdbGo d le fuel l pos).2 + 1 ∧
      (∀ i, 0 < i → i < l.length → i ≠ (sdbGo d le fuel l pos).2 →
        parentIdx i ≠ (sdbGo d le fuel l pos).2 →
        le (gd d (sdbGo d le fuel l pos).1 i)
           (gd d (sdbGo d le fuel l pos).1 (parentIdx i)) = true) := by
  intro fuel
  induction fuel with
  | zero =>
    intro l pos hpos hfuel _ _
    omega
  | succ fuel ih =>
    intro l pos hpos hfuel w1 w2
    have hstep : sdbGo d le (fuel+1) l pos =
        if 2*pos+1 + 2 ≤ l.length then
          sdbGo d le fuel
            (swapL l pos (if le (gd d l (2*pos+1)) (gd d l (2*pos+1+1)) = true
              then 2*pos+1+1 else 2*pos+1))
            (if le (gd d l (2*pos+1)) (gd d l (2*pos+1+1)) = true then 2*pos+1+1 else 2*pos+1)
        else if 2*pos+1 + 1 = l.length then (swapL l pos (2*pos+1), 2*pos+1)
        else (l, pos) := rfl
    by_cases hc2 : 2*pos+1 + 2 ≤ l.length
    · -- two children exist; descend to the greater one (right on ties)
      rw [hstep, if_pos hc2]
      generalize hc' : (if le (gd d l (2*pos+1)) (gd d l (2*pos+1+1)) = true
        then 2*pos+1+1 else 2*pos+1) = c'
      have hcr : 2*pos+1 ≤ c' ∧ c' ≤ 2*pos+2 := by
        split at hc' <;> omega
      have hcl : c' < l.length := by omega
      have hppar : parentIdx c' = pos := by
        unfold parentIdx
        omega
      have hL : (swapL l pos c').length = l.length := length_swapL l pos c'
      have vL : gd d (swapL l pos c') pos = gd d l c' :=
        gd_swapL_left d hpos hcl (by omega)
      have vO : ∀ k, k ≠ pos → k ≠ c' → gd d (swapL l pos c') k = gd d l k :=
        fun k hk₁ hk₂ => gd_swapL_other d hk₁ hk₂
      have hmax : ∀ s, parentIdx s = pos → s ≠ c' → s < l.length → 0 < s →
          le (gd d l s) (gd d l c') = true := by
        intro s hs hsc hsl hs0
        have hschild : s = 2*pos+1 ∨ s = 2*pos+2 := parentIdx_children hs0 hs
        by_cases hll : le (gd d l (2*pos+1)) (gd d l (2*pos+1+1)) = true
        · rw [if_pos hll] at hc'
          rcases hschild with rfl | rfl
          · rw [← hc']
            exact hll
          · omega
        · rw [if_neg hll] at hc'
          rcases hschild with rfl | rfl
          · omega
          · rw [← hc']
            rcases htot (gd d l (2*pos+1)) (gd d l (2*pos+1+1)) with h' | h'
            · exact absurd h' hll
            · exact h'
      have main := ih (swapL l pos c') c' (by rw [hL]; omega) (by rw [hL]; omega)
        (by
          -- W1 for the swapped list, exception c'
          intro i h0 hi hic hpic
          rw [hL] at hi
          rcases eq_or_ne i pos with hip | hip
          · subst hip
            rw [vL]
            have hpp : parentIdx i ≠ i := by
              have := parentIdx_lt h0
              omega
            have hppc : parentIdx i ≠ c' := by
              have := parentIdx_lt h0
              omega
            rw [vO _ hpp hppc]
            exact w2 c' hcl hppar (by omega) h0
          · rcases eq_or_ne (parentIdx i) pos with hpi | hpi
            · -- i is the sibling of c\u0027
              rw [vO i hip hic, hpi, vL]
              exact hmax i hpi hic hi h0
            · rw [vO i hip hic, vO _ hpi hpic]
              exact w1 i h0 hi hip hpi
        )
        (by
          -- W2 for the swapped list: children of c\u0027 against its parent pos
          intro i hi hpi hic hc0
          rw [hL] at hi
          rw [hppar, vL]
          have hi0 : 0 < i := by
            rcases Nat.eq_zero_or_pos i with rfl | h
            · simp [parentIdx] at hpi
              omega
            · exact h
          have hip : i ≠ pos := by
            have := parentIdx_lt hi0
            omega
          rw [vO i hip hic]
          have := w1 i hi0 hi hip (by omega)
          rwa [hpi] at this
        )
      rw [hL] at main
      exact main
    · by_cases hc1 : 2*pos+1 + 1 = l.length
      · -- exactly one child: move into it and stop (it is the bottom)
        rw [hstep, if_neg hc2, if_pos hc1]
        dsimp only
        have hcl : 2*pos+1 < l.length := by omega
        have hL : (swapL l pos (2*pos+1)).length = l.length := length_swapL l pos _
        have vL : gd d (swapL l pos (2*pos+1)) pos = gd d l (2*pos+1) :=
          gd_swapL_left d hpos hcl (by omega)
        have vO : ∀ k, k ≠ pos → k ≠ 2*pos+1 → gd d (swapL l pos (2*pos+1)) k = gd d l k :=
          fun k hk₁ hk₂ => gd_swapL_other d hk₁ hk₂
        refine ⟨hL, by omega, by omega, ?_⟩
        intro i h0 hi hic hpic
        rcases eq_or_ne i pos with hip | hip
        · subst hip
          rw [vL]
          have hpp : parentIdx i ≠ i := by
            have := parentIdx_lt h0
            omega
          have hppc : parentIdx i ≠ 2*i+1 := by
            have := parentIdx_lt h0
            omega
          rw [vO _ hpp hppc]
          have hpc : parentIdx (2*i+1) = i := by
            unfold parentIdx
            omega
          exact w2 (2*i+1) hcl hpc (by omega) h0
        · rcases eq_or_ne (parentIdx i) pos with hpi | hpi
          · -- i would be a child of pos other than 2*pos+1: out of range
            have := parentIdx_children h0 hpi
            omega
          · rw [vO i hip hic, vO _ hpi hpic]
            exact w1 i h0 hi hip hpi
      · -- no children: the hole is already at the bottom
        rw [hstep, if_neg hc2, if_neg hc1]
        exact ⟨rfl, hpos, by omega, fun i h0 hi hic hpic => w1 i h0 hi hic hpic⟩

theorem gd_append_left (l l₂ : List α) {i : ℕ} (h : i < l.length) :
    gd d (l ++ l₂) i = gd d l i := by
  simp [gd, List.getElem?_append_left h]

theorem gd_concat_self (l : List α) (x : α) : gd d (l ++ [x]) l.length = x := by
  simp [gd, List.getElem?_concat_length]

theorem gd_set_ne (l : List α) (i k : ℕ) (a : α) (h : i ≠ k) :
    gd d (l.set i a) k = gd d l k := by
  simp [gd, List.getElem?_set_ne h]

theorem gd_dropLast (l : List α) {i : ℕ} (h : i < l.length - 1) :
    gd d l.dropLast i = gd d l i := by
  simp [gd, List.getElem?_dropLast, if_pos h]

/-- `push` preserves the heap invariant. -/
theorem heapPush_inv
    (htot : ∀ a b, le a b = true ∨ le b a = true)
    (htrans : ∀ a b c, le a b = true → le b c = true → le a c = true)
    {l : List α} (x : α) (hinv : heapInvP d le l) : heapInvP d le (heapPush d le l x) := by
  apply siftUpGo_inv d le htot htrans l.length (l ++ [x]) l.length (le_refl _) (by simp)
  · intro i h0 hi hne
    have hi' : i < l.length := by
      simp only [List.length_append, List.length_singleton] at hi
      omega
    have hp' : parentIdx i < l.length := lt_trans (parentIdx_lt h0) hi'
    rw [gd_append_left d l [x] hi', gd_append_left d l [x] hp']
    exact hinv i h0 hi'
  · intro i hi hpi h0
    exfalso
    have h0i : 0 < i := by
      rcases Nat.eq_zero_or_pos i with rfl | h
      · simp [parentIdx] at hpi
        omega
      · exact h
    have := parentIdx_children h0i hpi
    simp only [List.length_append, List.length_singleton] at hi
    omega

theorem heapPush_perm (l : List α) (x : α) : (heapPush d le l x).Perm (x :: l) :=
  (siftUpGo_perm d le _ _ _).trans (List.perm_append_singleton x l)

/-- In a heap, the root is a maximum. -/
theorem heapInv_root_max
    (htot : ∀ a b, le a b = true ∨ le b a = true)
    (htrans : ∀ a b c, le a b = true → le b c = true → le a c = true)
    {l : List α} (hinv : heapInvP d le l) :
    ∀ i, i < l.length → le (gd d l i) (gd d l 0) = true := by
  intro i
  induction i using Nat.strong_induction_on with
  | _ i ih =>
    intro hi
    rcases Nat.eq_zero_or_pos i with rfl | h0
    · rcases htot (gd d l 0) (gd d l 0) with h | h <;> exact h
    · exact htrans _ _ _ (hinv i h0 hi)
        (ih (parentIdx i) (parentIdx_lt h0) (lt_trans (parentIdx_lt h0) hi))

theorem heapPop_of_getLast? {l : List α} {lastE : α} (hl : l.getLast? = some lastE) :
    heapPop d le l = if l.dropLast.isEmpty = true then some (lastE, [])
      else some (gd d l.dropLast 0, siftDownToBottom d le (l.dropLast.set 0 lastE)) := by
  unfold heapPop
  rw [hl]

theorem heapPop_eq_none_iff (l : List α) : heapPop d le l = none ↔ l = [] := by
  cases hl : l.getLast? with
  | none =>
    have : l = [] := List.getLast?_eq_none_iff.mp hl
    subst this
    simp [heapPop]
  | some lastE =>
    have hne : l ≠ [] := by
      intro h
      subst h
      simp at hl
    rw [heapPop_of_getLast? d le hl]
    split <;> simp [hne]

/-- Specification of `pop` on a heap: the popped element is a maximum, the remaining
list is a permutation of the rest and is again a heap. -/
theorem heapPop_spec
    (htot : ∀ a b, le a b = true ∨ le b a = true)
    (htrans : ∀ a b c, le a b = true → le b c = true → le a c = true)
    {l l₂ : List α} {x : α} (hinv : heapInvP d le l)
    (hpop : heapPop d le l = some (x, l₂)) :
    l.Perm (x :: l₂) ∧ heapInvP d le l₂ ∧ (∀ y ∈ l, le y x = true) := by
  cases hl : l.getLast? with
  | none =>
    have : l = [] := List.getLast?_eq_none_iff.mp hl
    subst this
    simp [heapPop] at hpop
  | some lastE =>
    rw [heapPop_of_getLast? d le hl] at hpop
    obtain ⟨ys, hys⟩ := List.getLast?_eq_some_iff.mp hl
    have hdrop : l.dropLast = ys := by rw [hys]; simp
    by_cases hre : l.dropLast.isEmpty
    · rw [if_pos hre] at hpop
      simp only [Option.some_inj, Prod.mk.injEq] at hpop
      have hx : x = lastE := hpop.1.symm
      have hl2 : l₂ = [] := hpop.2.symm
      have hys0 : ys = [] := by
        rw [hdrop] at hre
        simpa using hre
      have hleq : l = [lastE] := by rw [hys, hys0, List.nil_append]
      refine ⟨?_, ?_, ?_⟩
      · rw [hleq, hx, hl2]
      · rw [hl2]
        intro i h0 hi
        simp at hi
      · intro y hy
        rw [hleq] at hy
        simp only [List.mem_singleton] at hy
        rw [hy, hx]
        rcases htot lastE lastE with h | h <;> exact h
    · rw [if_neg hre] at hpop
      rw [hdrop] at hpop
      simp only [Option.some_inj, Prod.mk.injEq] at hpop
      obtain ⟨hx, hl₂⟩ := hpop
      -- shape facts
      have hysne : ys ≠ [] := by
        intro h
        rw [hdrop, h] at hre
        simp at hre
      obtain ⟨ya, yt, rfl⟩ := List.exists_cons_of_ne_nil hysne
      have hlen : l.length = (ya :: yt).length + 1 := by rw [hys]; simp
      -- the returned element is the root of the heap
      have hroot : x = gd d l 0 := by
        rw [← hx, hys]
        simp [gd]
      -- W1 for the start of the walk: all edges not involving the root hold
      have hW1 : ∀ i, 0 < i → i < ((ya :: yt).set 0 lastE).length → i ≠ 0 → parentIdx i ≠ 0 →
          le (gd d ((ya :: yt).set 0 lastE) i)
             (gd d ((ya :: yt).set 0 lastE) (parentIdx i)) = true := by
        intro i h0 hi _ hpi
        have hil : i < (ya :: yt).length := by simpa using hi
        have hpil : parentIdx i < (ya :: yt).length := lt_trans (parentIdx_lt h0) hil
        rw [gd_set_ne d _ 0 i lastE (by omega), gd_set_ne d _ 0 (parentIdx i) lastE (by omega)]
        have hgy : ∀ k, k < (ya :: yt).length → gd d (ya :: yt) k = gd d l k := by
          intro k hk
          rw [← hdrop]
          exact gd_dropLast d l (by omega)
        rw [hgy i hil, hgy (parentIdx i) hpil]
        exact hinv i h0 (by omega)
      have hlen1 : ((ya :: yt).set 0 lastE).length = (ya :: yt).length := by simp
      -- run the walk
      rcases hr : sdbGo d le ((ya :: yt).set 0 lastE).length ((ya :: yt).set 0 lastE) 0
        with ⟨l3, p3⟩
      have walk := sdbGo_spec d le htot htrans ((ya :: yt).set 0 lastE).length
        ((ya :: yt).set 0 lastE) 0 (by simp) (by omega) hW1 (by intro i _ _ _ h0; omega)
      simp only [hr] at walk
      obtain ⟨wlen, wpos, wbot, wW1⟩ := walk
      -- sift the displaced element back up
      have hsd : siftDownToBottom d le ((ya :: yt).set 0 lastE) = siftUpGo d le p3 l3 p3 := by
        unfold siftDownToBottom siftUp
        rw [hr]
      have hinv₂ : heapInvP d le l₂ := by
        rw [← hl₂, hsd]
        refine siftUpGo_inv d le htot htrans p3 l3 p3 (le_refl _) ?_ ?_ ?_
        · omega
        · intro i h0 hi hne
          apply wW1 i h0 (by omega) hne
          intro hpar
          have := parentIdx_children h0 hpar
          omega
        · intro i hi hpar h0
          exfalso
          have h0i : 0 < i := by
            rcases Nat.eq_zero_or_pos i with rfl | h
            · simp [parentIdx] at hpar
              omega
            · exact h
          have := parentIdx_children h0i hpar
          omega
      refine ⟨?_, hinv₂, ?_⟩
      · -- permutation: l ~ x :: l₂
        have hperm₂ : l₂.Perm ((ya :: yt).set 0 lastE) := by
          rw [← hl₂, hsd]
          have h1 := sdbGo_perm d le ((ya :: yt).set 0 lastE).length ((ya :: yt).set 0 lastE) 0
          rw [hr] at h1
          exact (siftUpGo_perm d le p3 l3 p3).trans h1
        have hxa : x = ya := by
          rw [← hx]
          simp [gd]
        subst hxa
        rw [hys]
        simp only [List.set] at hperm₂
        exact ((List.perm_append_singleton lastE yt).trans hperm₂.symm).cons x
      · -- maximality of the popped element
        intro y hy
        obtain ⟨n, hn⟩ := List.mem_iff_getElem?.mp hy
        have hnl : n < l.length := (List.getElem?_eq_some_iff.mp hn).1
        rw [hroot, ← gd_eq_of_getElem? (d := d) hn]
        exact heapInv_root_max d le htot htrans hinv n hnl

end HeapLemmas

/-! ## Lemmas about the association-list store -/

theorem sLookup_mem {T : Type} :
    ∀ {st : List (ℕ × Trigger T)} {i : ℕ} {tr : Trigger T},
      sLookup st i = some tr → (i, tr) ∈ st := by
  intro st
  induction st with
  | nil => intro i tr h; simp [sLookup] at h
  | cons q r ih =>
    intro i tr h
    obtain ⟨j, tq⟩ := q
    unfold sLookup at h
    by_cases hj : j = i
    · rw [if_pos hj] at h
      obtain rfl := Option.some_inj.mp h
      subst hj
      exact List.mem_cons_self _ _
    · rw [if_neg hj] at h
      exact List.mem_cons_of_mem _ (ih h)

theorem sLookup_eq_none_iff {T : Type} :
    ∀ (st : List (ℕ × Trigger T)) (i : ℕ), sLookup st i = none ↔ i ∉ storeIds st := by
  intro st
  induction st with
  | nil => intro i; simp [sLookup, storeIds]
  | cons q r ih =>
    intro i
    obtain ⟨j, tq⟩ := q
    unfold sLookup
    by_cases hj : j = i
    · rw [if_pos hj]
      simp [storeIds, hj]
    · rw [if_neg hj, ih i]
      have hst : storeIds ((j, tq) :: r) = j :: storeIds r := rfl
      rw [hst]
      simp only [List.mem_cons]
      constructor
      · intro h hmem
        rcases hmem with h' | h'
        · exact hj h'.symm
        · exact h h'
      · intro h h'
        exact h (Or.inr h')

theorem mem_sLookup {T : Type} :
    ∀ {st : List (ℕ × Trigger T)}, (storeIds st).Nodup →
      ∀ {i : ℕ} {tr : Trigger T}, (i, tr) ∈ st → sLookup st i = some tr := by
  intro st
  induction st with
  | nil => intro _ i tr h; simp at h
  | cons q r ih =>
    intro hnd i tr h
    obtain ⟨j, tq⟩ := q
    simp only [storeIds, List.map_cons, List.nodup_cons] at hnd
    rcases List.mem_cons.mp h with heq | hmem
    · obtain ⟨rfl, rfl⟩ := Prod.mk.injEq .. ▸ heq
      simp [sLookup]
    · have hne : j ≠ i := by
        intro hji
        subst hji
        exact hnd.1 (List.mem_map.mpr ⟨(j, tr), hmem, rfl⟩)
      unfold sLookup
      rw [if_neg hne]
      exact ih hnd.2 hmem

theorem sLookup_sSet_self {T : Type} :
    ∀ {st : List (ℕ × Trigger T)} {i : ℕ} {tr tr' : Trigger T},
      sLookup st i = some tr → sLookup (sSet st i tr') i = some tr' := by
  intro st
  induction st with
  | nil => intro i tr tr' h; simp [sLookup] at h
  | cons q r ih =>
    intro i tr tr' h
    obtain ⟨j, tq⟩ := q
    unfold sLookup at h
    unfold sSet
    by_cases hj : j = i
    · rw [if_pos hj]
      unfold sLookup
      rw [if_pos hj]
    · rw [if_neg hj]
      rw [if_neg hj] at h
      unfold sLookup
      rw [if_neg hj]
      exact ih h

theorem sLookup_sSet_ne {T : Type} :
    ∀ (st : List (ℕ × Trigger T)) {i j : ℕ} (tr' : Trigger T), j ≠ i →
      sLookup (sSet st i tr') j = sLookup st j := by
  intro st
  induction st with
  | nil => intro i j tr' _; rfl
  | cons q r ih =>
    intro i j tr' hji
    obtain ⟨k, tq⟩ := q
    unfold sSet
    by_cases hk : k = i
    · rw [if_pos hk]
      unfold sLookup
      rw [if_neg (by omega), if_neg (by omega)]
    · rw [if_neg hk]
      unfold sLookup
      by_cases hkj : k = j
      · rw [if_pos hkj, if_pos hkj]
      · rw [if_neg hkj, if_neg hkj]
        exact ih tr' hji

theorem storeIds_sSet {T : Type} :
    ∀ (st : List (ℕ × Trigger T)) (i : ℕ) (tr' : Trigger T),
      storeIds (sSet st i tr') = storeIds st := by
  intro st
  induction st with
  | nil => intro i tr'; rfl
  | cons q r ih =>
    intro i tr'
    obtain ⟨k, tq⟩ := q
    unfold sSet
    by_cases hk : k = i
    · rw [if_pos hk]
      simp [storeIds]
    · rw [if_neg hk]
      simp only [storeIds, List.map_cons]
      rw [show (sSet r i tr').map Prod.fst = storeIds (sSet r i tr') from rfl, ih i tr']
      rfl

theorem mem_sSet {T : Type} :
    ∀ {st : List (ℕ × Trigger T)} {i : ℕ} {tr' : Trigger T} {q : ℕ × Trigger T},
      q ∈ sSet st i tr' → q ∈ st ∨ (q.1 = i ∧ q.2 = tr') := by
  intro st
  induction st with
  | nil => intro i tr' q h; simp [sSet] at h
  | cons p r ih =>
    intro i tr' q h
    obtain ⟨k, tq⟩ := p
    unfold sSet at h
    by_cases hk : k = i
    · rw [if_pos hk] at h
      rcases List.mem_cons.mp h with rfl | hmem
      · right
        exact ⟨hk, rfl⟩
      · exact Or.inl (List.mem_cons_of_mem _ hmem)
    · rw [if_neg hk] at h
      rcases List.mem_cons.mp h with rfl | hmem
      · exact Or.inl (List.mem_cons_self _ _)
      · rcases ih hmem with h' | h'
        · exact Or.inl (List.mem_cons_of_mem _ h')
        · exact Or.inr h'

theorem sRemove_sublist {T : Type} :
    ∀ (st : List (ℕ × Trigger T)) (i : ℕ), (sRemove st i).Sublist st := by
  intro st
  induction st with
  | nil => intro i; simp [sRemove]
  | cons q r ih =>
    intro i
    obtain ⟨k, tq⟩ := q
    unfold sRemove
    by_cases hk : k = i
    · rw [if_pos hk]
      exact (List.sublist_cons_self _ _)
    · rw [if_neg hk]
      exact (ih i).cons₂ _

theorem sLookup_sRemove_ne {T : Type} :
    ∀ (st : List (ℕ × Trigger T)) {i j : ℕ}, j ≠ i →
      sLookup (sRemove st i) j = sLookup st j := by
  intro st
  induction st with
  | nil => intro i j _; rfl
  | cons q r ih =>
    intro i j hji
    obtain ⟨k, tq⟩ := q
    unfold sRemove
    by_cases hk : k = i
    · rw [if_pos hk]
      have hst : sLookup ((k, tq) :: r) j = if k = j then some tq else sLookup r j := rfl
      rw [hst, if_neg (by omega)]
    · rw [if_neg hk]
      unfold sLookup
      by_cases hkj : k = j
      · rw [if_pos hkj, if_pos hkj]
      · rw [if_neg hkj, if_neg hkj]
        exact ih hji

theorem sLookup_sRemove_self {T : Type} :
    ∀ (st : List (ℕ × Trigger T)), (storeIds st).Nodup →
      ∀ (i : ℕ), sLookup (sRemove st i) i = none := by
  intro st
  induction st with
  | nil => intro _ i; rfl
  | cons q r ih =>
    intro hnd i
    obtain ⟨k, tq⟩ := q
    simp only [storeIds, List.map_cons, List.nodup_cons] at hnd
    unfold sRemove
    by_cases hk : k = i
    · rw [if_pos hk]
      rw [sLookup_eq_none_iff]
      subst hk
      exact fun hmem => hnd.1 hmem
    · rw [if_neg hk]
      unfold sLookup
      rw [if_neg hk]
      exact ih hnd.2 i

/-! ## The trigger comparison is a total preorder -/

theorem trLe_tot {T : Type} [LinearOrder T] :
    ∀ a b : T × ℕ, trLe a b = true ∨ trLe b a = true := by
  intro a b
  simp only [trLe, decide_eq_true_eq]
  exact le_total b.1 a.1

theorem trLe_trans {T : Type} [LinearOrder T] :
    ∀ a b c : T × ℕ, trLe a b = true → trLe b c = true → trLe a c = true := by
  intro a b c
  simp only [trLe, decide_eq_true_eq]
  intro h₁ h₂
  exact le_trans h₂ h₁

/-! ## Characterisation of `schedule` and `cancelOp` -/

section TimelineOps

variable {T : Type} [LinearOrderedAddCommGroup T]

theorem schedule_time (s : Timeline T) (dl : T) (a : Act T) :
    (schedule s dl a).1.time = s.time := rfl

theorem schedule_executed (s : Timeline T) (dl : T) (a : Act T) :
    (schedule s dl a).1.executed = s.executed := rfl

theorem schedule_discarded (s : Timeline T) (dl : T) (a : Act T) :
    (schedule s dl a).1.discarded = s.discarded := rfl

theorem schedule_nextId (s : Timeline T) (dl : T) (a : Act T) :
    (schedule s dl a).1.nextId = s.nextId + 1 := rfl

theorem schedule_store (s : Timeline T) (dl : T) (a : Act T) :
    (schedule s dl a).1.store = (s.nextId, ⟨s.time + dl, a, false⟩) :: s.store := rfl

theorem schedule_snd (s : Timeline T) (dl : T) (a : Act T) :
    (schedule s dl a).2 = s.nextId := rfl

theorem schedule_heap_perm (s : Timeline T) (dl : T) (a : Act T) :
    (schedule s dl a).1.heap.Perm ((s.time + dl, s.nextId) :: s.heap) :=
  heapPush_perm (0, 0) trLe s.heap (s.time + dl, s.nextId)

theorem schedule_heapIds_perm (s : Timeline T) (dl : T) (a : Act T) :
    (heapIds (schedule s dl a).1.heap).Perm (s.nextId :: heapIds s.heap) :=
  (schedule_heap_perm s dl a).map Prod.snd

theorem cancelOp_heap (s : Timeline T) (h : ℕ) : (cancelOp s h).heap = s.heap := by
  unfold cancelOp
  cases sLookup s.store h <;> rfl

theorem cancelOp_time (s : Timeline T) (h : ℕ) : (cancelOp s h).time = s.time := by
  unfold cancelOp
  cases sLookup s.store h <;> rfl

theorem cancelOp_executed (s : Timeline T) (h : ℕ) : (cancelOp s h).executed = s.executed := by
  unfold cancelOp
  cases sLookup s.store h <;> rfl

theorem cancelOp_discarded (s : Timeline T) (h : ℕ) :
    (cancelOp s h).discarded = s.discarded := by
  unfold cancelOp
  cases sLookup s.store h <;> rfl

theorem cancelOp_nextId (s : Timeline T) (h : ℕ) : (cancelOp s h).nextId = s.nextId := by
  unfold cancelOp
  cases sLookup s.store h <;> rfl

theorem cancelOp_storeIds (s : Timeline T) (h : ℕ) :
    storeIds (cancelOp s h).store = storeIds s.store := by
  unfold cancelOp
  cases hl : sLookup s.store h
  · rfl
  · exact storeIds_sSet s.store h _

theorem cancelOp_lookup_ne (s : Timeline T) {h j : ℕ} (hne : j ≠ h) :
    sLookup (cancelOp s h).store j = sLookup s.store j := by
  unfold cancelOp
  cases hl : sLookup s.store h
  · rfl
  · exact sLookup_sSet_ne s.store _ hne

/-- Cancellation only ever raises the `cancelled` flag of the addressed trigger:
every live record keeps its time and action, and a set flag stays set. -/
theorem cancelOp_lookup_mono (s : Timeline T) (h j : ℕ) {tr : Trigger T}
    (hl : sLookup s.store j = some tr) :
    ∃ tr', sLookup (cancelOp s h).store j = some tr' ∧ tr'.time = tr.time ∧
      tr'.action = tr.action ∧ (tr.cancelled = true → tr'.cancelled = true) := by
  by_cases hj : j = h
  · subst hj
    unfold cancelOp
    rw [hl]
    exact ⟨{ tr with cancelled := true }, sLookup_sSet_self hl, rfl, rfl, fun _ => rfl⟩
  · exact ⟨tr, by rw [cancelOp_lookup_ne s hj, hl], rfl, rfl, fun h => h⟩

/-! ## Well-formedness is preserved by the operations -/

theorem WFx_schedule {s : Timeline T} {X : Option ℕ} (hw : WFx s X) (dl : T) (a : Act T) :
    WFx (schedule s dl a).1 X := by
  have hperm := schedule_heap_perm s dl a
  have hips := schedule_heapIds_perm s dl a
  constructor
  · -- heapNodup
    rw [hips.nodup_iff]
    refine List.nodup_cons.mpr ⟨?_, hw.heapNodup⟩
    intro hmem
    obtain ⟨p, hp, hsnd⟩ := List.mem_map.mp hmem
    exact absurd (hsnd ▸ hw.heapBound p hp) (by omega)
  · -- storeNodup
    rw [schedule_store]
    refine List.nodup_cons.mpr ⟨?_, hw.storeNodup⟩
    intro hmem
    obtain ⟨q, hq, hfst⟩ := List.mem_map.mp hmem
    exact absurd (hfst ▸ hw.storeBound q hq) (by omega)
  · -- heapBound
    intro p hp
    rw [schedule_nextId]
    rcases List.mem_cons.mp (hperm.mem_iff.mp hp) with rfl | hmem
    · omega
    · have := hw.heapBound p hmem
      omega
  · -- storeBound
    intro q hq
    rw [schedule_nextId]
    rw [schedule_store] at hq
    rcases List.mem_cons.mp hq with rfl | hmem
    · omega
    · have := hw.storeBound q hmem
      omega
  · -- align
    intro p hp
    rw [schedule_store]
    rcases List.mem_cons.mp (hperm.mem_iff.mp hp) with rfl | hmem
    · exact ⟨⟨s.time + dl, a, false⟩, by simp [sLookup], rfl⟩
    · obtain ⟨tr, htr, htime⟩ := hw.align p hmem
      refine ⟨tr, ?_, htime⟩
      have hne : s.nextId ≠ p.2 := by
        have := hw.heapBound p hmem
        omega
      show (if s.nextId = p.2 then some ⟨s.time + dl, a, false⟩ else sLookup s.store p.2) = some tr
      rw [if_neg hne]
      exact htr
  · -- inQueue
    intro q hq
    rw [schedule_store] at hq
    rcases List.mem_cons.mp hq with rfl | hmem
    · exact Or.inr ⟨s.time + dl, hperm.mem_iff.mpr (List.mem_cons_self _ _)⟩
    · rcases hw.inQueue q hmem with hX | ⟨t, ht⟩
      · exact Or.inl hX
      · exact Or.inr ⟨t, hperm.mem_iff.mpr (List.mem_cons_of_mem _ ht)⟩

theorem WFx_cancelOp {s : Timeline T} {X : Option ℕ} (hw : WFx s X) (h : ℕ) :
    WFx (cancelOp s h) X := by
  constructor
  · rw [cancelOp_heap]
    exact hw.heapNodup
  · rw [cancelOp_storeIds]
    exact hw.storeNodup
  · rw [cancelOp_heap, cancelOp_nextId]
    exact hw.heapBound
  · intro q hq
    rw [cancelOp_nextId]
    unfold cancelOp at hq
    cases hl : sLookup s.store h with
    | none =>
      rw [hl] at hq
      exact hw.storeBound q hq
    | some tr =>
      rw [hl] at hq
      rcases mem_sSet hq with hmem | ⟨hfst, _⟩
      · exact hw.storeBound q hmem
      · have := hw.storeBound (h, tr) (sLookup_mem hl)
        omega
  · intro p hp
    rw [cancelOp_heap] at hp
    obtain ⟨tr, htr, htime⟩ := hw.align p hp
    obtain ⟨tr', htr', htime', _, _⟩ := cancelOp_lookup_mono s h p.2 htr
    exact ⟨tr', htr', htime'.trans htime⟩
  · intro q hq
    rw [cancelOp_heap]
    unfold cancelOp at hq
    cases hl : sLookup s.store h with
    | none =>
      rw [hl] at hq
      exact hw.inQueue q hq
    | some tr =>
      rw [hl] at hq
      rcases mem_sSet hq with hmem | ⟨hfst, _⟩
      · exact hw.inQueue q hmem
      · have := hw.inQueue (h, tr) (sLookup_mem hl)
        rw [hfst]
        exact this

end TimelineOps

section ExecRelLemmas

variable {T : Type} [LinearOrderedAddCommGroup T]

theorem ExecRel.refl (s : Timeline T) : ExecRel s s := by
  constructor
  · rfl
  · rfl
  · rfl
  · exact le_refl _
  · simp
  · intro j tr _ h
    exact ⟨tr, h, rfl, rfl, fun h' => h'⟩

theorem ExecRel.trans {s₁ s₂ s₃ : Timeline T} (h₁ : ExecRel s₁ s₂) (h₂ : ExecRel s₂ s₃) :
    ExecRel s₁ s₃ := by
  constructor
  · rw [h₂.time_eq, h₁.time_eq]
  · rw [h₂.executed_eq, h₁.executed_eq]
  · rw [h₂.discarded_eq, h₁.discarded_eq]
  · exact le_trans h₁.nextId_le h₂.nextId_le
  · refine h₂.heapIds_perm.trans ?_
    refine (h₁.heapIds_perm.append_right _).trans ?_
    rw [List.append_assoc]
    apply List.Perm.append_left
    have hn₁ := h₁.nextId_le
    have hn₂ := h₂.nextId_le
    have hsplit : s₃.nextId - s₁.nextId = (s₃.nextId - s₂.nextId) + (s₂.nextId - s₁.nextId) := by
      omega
    rw [hsplit]
    have := List.range'_append_1 s₁.nextId (s₂.nextId - s₁.nextId) (s₃.nextId - s₂.nextId)
    have harg : s₁.nextId + (s₂.nextId - s₁.nextId) = s₂.nextId := by omega
    rw [harg] at this
    rw [this]
  · intro j tr hj h
    obtain ⟨tr', h', ht, ha, hc⟩ := h₁.lookup_mono j tr hj h
    obtain ⟨tr'', h'', ht', ha', hc'⟩ := h₂.lookup_mono j tr' (lt_of_lt_of_le hj h₁.nextId_le) h'
    exact ⟨tr'', h'', ht'.trans ht, ha'.trans ha, fun hx => hc' (hc hx)⟩

theorem ExecRel.scheduleStep (s : Timeline T) (dl : T) (a : Act T) :
    ExecRel s (schedule s dl a).1 := by
  constructor
  · rfl
  · rfl
  · rfl
  · rw [schedule_nextId]
    omega
  · rw [schedule_nextId]
    have h1 : s.nextId + 1 - s.nextId = 1 := by omega
    rw [h1, List.range'_one]
    exact (schedule_heapIds_perm s dl a).trans (List.perm_append_singleton _ _).symm
  · intro j tr hj h
    refine ⟨tr, ?_, rfl, rfl, fun h' => h'⟩
    rw [schedule_store]
    show (if s.nextId = j then some ⟨s.time + dl, a, false⟩ else sLookup s.store j) = some tr
    rw [if_neg (by omega)]
    exact h

theorem ExecRel.cancelStep (s : Timeline T) (h : ℕ) : ExecRel s (cancelOp s h) := by
  constructor
  · exact cancelOp_time s h
  · exact cancelOp_executed s h
  · exact cancelOp_discarded s h
  · exact Nat.le_of_eq (cancelOp_nextId s h).symm
  · rw [cancelOp_heap, cancelOp_nextId]
    simp
  · intro j tr _ hl
    exact cancelOp_lookup_mono s h j hl

theorem execAct_rel : ∀ (a : Act T) (s : Timeline T), ExecRel s (execAct a s) := by
  intro a
  induction a with
  | done => intro s; exact ExecRel.refl s
  | sched dl a k iha ihk =>
    intro s
    exact (ExecRel.scheduleStep s dl a).trans (ihk _)
  | cancelA h k ihk =>
    intro s
    exact (ExecRel.cancelStep s h).trans (ihk _)

theorem execAct_WFx {X : Option ℕ} :
    ∀ (a : Act T) {s : Timeline T}, WFx s X → WFx (execAct a s) X := by
  intro a
  induction a with
  | done => intro s hw; exact hw
  | sched dl a k iha ihk => intro s hw; exact ihk (WFx_schedule hw dl a)
  | cancelA h k ihk => intro s hw; exact ihk (WFx_cancelOp hw h)

/-- Order-related invariants are preserved by running a non-negative action body. -/
theorem execAct_ord :
    ∀ (a : Act T) {s : Timeline T}, a.nonneg = true →
      heapInvP (0, 0) trLe s.heap → pendingGE s → storeNonneg s →
      heapInvP (0, 0) trLe (execAct a s).heap ∧ pendingGE (execAct a s) ∧
        storeNonneg (execAct a s) := by
  intro a
  induction a with
  | done => intro s _ h1 h2 h3; exact ⟨h1, h2, h3⟩
  | sched dl a k iha ihk =>
    intro s hn h1 h2 h3
    simp only [Act.nonneg, Bool.and_eq_true, decide_eq_true_eq] at hn
    obtain ⟨⟨hdl, hna⟩, hnk⟩ := hn
    show heapInvP (0,0) trLe (execAct k (schedule s dl a).1).heap ∧ _
    apply ihk hnk
    · exact heapPush_inv (0,0) trLe trLe_tot trLe_trans _ h1
    · intro p hp
      rw [schedule_time]
      rcases List.mem_cons.mp ((schedule_heap_perm s dl a).mem_iff.mp hp) with rfl | hmem
      · exact le_add_of_nonneg_right hdl
      · exact h2 p hmem
    · intro q hq
      rw [schedule_store] at hq
      rcases List.mem_cons.mp hq with rfl | hmem
      · exact hna
      · exact h3 q hmem
  | cancelA h k ihk =>
    intro s hn h1 h2 h3
    simp only [Act.nonneg] at hn
    show heapInvP (0,0) trLe (execAct k (cancelOp s h)).heap ∧ _
    apply ihk hn
    · rw [cancelOp_heap]
      exact h1
    · intro p hp
      rw [cancelOp_heap] at hp
      rw [cancelOp_time]
      exact h2 p hp
    · intro q hq
      unfold cancelOp at hq
      cases hl : sLookup s.store h with
      | none =>
        rw [hl] at hq
        exact h3 q hq
      | some tr =>
        rw [hl] at hq
        rcases mem_sSet hq with hmem | ⟨_, hq2⟩
        · exact h3 q hmem
        · rw [hq2]
          exact h3 (h, tr) (sLookup_mem hl)

end ExecRelLemmas

/-! ## The drain behaviour of `run` -/

theorem heapPop_perm {α : Type} (d : α) (le : α → α → Bool) {l l₂ : List α} {x : α}
    (hpop : heapPop d le l = some (x, l₂)) : l.Perm (x :: l₂) := by
  cases hl : l.getLast? with
  | none =>
    have : l = [] := List.getLast?_eq_none_iff.mp hl
    subst this
    simp [heapPop] at hpop
  | some lastE =>
    rw [heapPop_of_getLast? d le hl] at hpop
    obtain ⟨ys, hys⟩ := List.getLast?_eq_some_iff.mp hl
    have hdrop : l.dropLast = ys := by rw [hys]; simp
    by_cases hre : l.dropLast.isEmpty
    · rw [if_pos hre] at hpop
      simp only [Option.some_inj, Prod.mk.injEq] at hpop
      have hys0 : ys = [] := by
        rw [hdrop] at hre
        simpa using hre
      rw [hys, hys0, ← hpop.1, ← hpop.2]
      simp
    · rw [if_neg hre, hdrop] at hpop
      simp only [Option.some_inj, Prod.mk.injEq] at hpop
      obtain ⟨hx, hl₂⟩ := hpop
      have hysne : ys ≠ [] := by
        intro h
        rw [hdrop, h] at hre
        simp at hre
      obtain ⟨ya, yt, rfl⟩ := List.exists_cons_of_ne_nil hysne
      have hsd : siftDownToBottom d le ((ya :: yt).set 0 lastE) =
          siftUpGo d le
            (sdbGo d le ((ya :: yt).set 0 lastE).length ((ya :: yt).set 0 lastE) 0).2
            (sdbGo d le ((ya :: yt).set 0 lastE).length ((ya :: yt).set 0 lastE) 0).1
            (sdbGo d le ((ya :: yt).set 0 lastE).length ((ya :: yt).set 0 lastE) 0).2 := rfl
      have hperm₂ : l₂.Perm ((ya :: yt).set 0 lastE) := by
        rw [← hl₂, hsd]
        exact (siftUpGo_perm d le _ _ _).trans (sdbGo_perm d le _ _ _)
      have hxa : x = ya := by
        rw [← hx]
        simp [gd]
      subst hxa
      rw [hys]
      simp only [List.set] at hperm₂
      exact ((List.perm_append_singleton lastE yt).trans hperm₂.symm).cons x

theorem mem_sRemove_nodup {T : Type} :
    ∀ {st : List (ℕ × Trigger T)}, (storeIds st).Nodup →
      ∀ {i : ℕ} {q : ℕ × Trigger T}, q ∈ sRemove st i → q ∈ st ∧ q.1 ≠ i := by
  intro st
  induction st with
  | nil => intro _ i q h; simp [sRemove] at h
  | cons p r ih =>
    intro hnd i q h
    obtain ⟨k, tq⟩ := p
    simp only [storeIds, List.map_cons, List.nodup_cons] at hnd
    unfold sRemove at h
    by_cases hk : k = i
    · rw [if_pos hk] at h
      refine ⟨List.mem_cons_of_mem _ h, ?_⟩
      intro hqi
      exact hnd.1 (List.mem_map.mpr ⟨q, h, by rw [hqi, hk]⟩)
    · rw [if_neg hk] at h
      rcases List.mem_cons.mp h with rfl | hmem
      · exact ⟨List.mem_cons_self _ _, hk⟩
      · obtain ⟨hq, hqi⟩ := ih hnd.2 hmem
        exact ⟨List.mem_cons_of_mem _ hq, hqi⟩

/-- One-step reduction of the `run` loop. -/
theorem runAux_succ {T : Type} [LinearOrderedAddCommGroup T] (fuel : ℕ) (s : Timeline T) :
    runAux (fuel+1) s =
      match heapPop (0, 0) trLe s.heap with
      | none => some s
      | some (p, h') =>
        match sLookup s.store p.2 with
        | none => runAux fuel { s with heap := h' }
        | some tr =>
          if tr.cancelled then
            runAux fuel { s with
              heap := h'
              store := sRemove s.store p.2
              discarded := s.discarded ++ [(tr.time, p.2)] }
          else
            let s₁ := { s with
              heap := h'
              time := tr.time
              executed := s.executed ++ [(tr.time, p.2)] }
            let s₂ := execAct tr.action s₁
            runAux fuel { s₂ with store := sRemove s₂.store p.2 } := rfl

/-- Master lemma for the structural behaviour of `run`. -/
theorem runAux_drain {T : Type} [LinearOrderedAddCommGroup T] :
    ∀ (fuel : ℕ) (s s' : Timeline T), runAux fuel s = some s' → WFq s → RunRel s s' := by
  intro fuel
  induction fuel with
  | zero =>
    intro s s' h _
    simp [runAux] at h
  | succ fuel ih =>
    intro s s' h hw
    rw [runAux_succ] at h
    cases hpop : heapPop (0, 0) trLe s.heap with
    | none =>
      rw [hpop] at h
      dsimp only at h
      obtain rfl := Option.some_inj.mp h
      have hnil : s.heap = [] := (heapPop_eq_none_iff (0,0) trLe s.heap).mp hpop
      constructor
      · exact hw
      · exact hnil
      · exact ⟨[], by simp⟩
      · exact ⟨[], by simp⟩
      · exact le_refl _
      · simp [hnil, heapIds]
      · intro i tr _ _
        simp
      · intro e he
        simp at he
    | some ph =>
      obtain ⟨p, h'⟩ := ph
      rw [hpop] at h
      dsimp only at h
      -- facts about the popped entry
      have hperm : s.heap.Perm (p :: h') := heapPop_perm (0,0) trLe hpop
      have hidp : (heapIds s.heap).Perm (p.2 :: heapIds h') := hperm.map Prod.snd
      have hpmem : p ∈ s.heap := hperm.mem_iff.mpr (List.mem_cons_self _ _)
      have hnodc : (p.2 :: heapIds h').Nodup := (hidp.nodup_iff).mp hw.heapNodup
      have hpnotin : p.2 ∉ heapIds h' := (List.nodup_cons.mp hnodc).1
      have hndh' : (heapIds h').Nodup := (List.nodup_cons.mp hnodc).2
      have hbp : p.2 < s.nextId := hw.heapBound p hpmem
      obtain ⟨tr, hlook, htime⟩ := hw.align p hpmem
      rw [hlook] at h
      dsimp only at h
      by_cases hc : tr.cancelled = true
      · -- the popped trigger was cancelled: dropped without executing
        rw [if_pos hc] at h
        have hw₁ : WFq ({ s with
            heap := h'
            store := sRemove s.store p.2
            discarded := s.discarded ++ [(tr.time, p.2)] } : Timeline T) := by
          constructor
          · exact hndh'
          · exact List.Sublist.nodup ((sRemove_sublist s.store p.2).map Prod.fst) hw.storeNodup
          · intro q hq
            exact hw.heapBound q (hperm.mem_iff.mpr (List.mem_cons_of_mem _ hq))
          · intro q hq
            exact hw.storeBound q ((sRemove_sublist s.store p.2).subset hq)
          · intro q hq
            have hqmem : q ∈ s.heap := hperm.mem_iff.mpr (List.mem_cons_of_mem _ hq)
            obtain ⟨tr', hl', ht'⟩ := hw.align q hqmem
            have hqne : q.2 ≠ p.2 := by
              intro he
              apply hpnotin
              rw [← he]
              exact List.mem_map.mpr ⟨q, hq, rfl⟩
            refine ⟨tr', ?_, ht'⟩
            rw [sLookup_sRemove_ne s.store hqne]
            exact hl'
          · intro q hq
            obtain ⟨hqs, hqne⟩ := mem_sRemove_nodup hw.storeNodup hq
            rcases hw.inQueue q hqs with hX | ⟨t, ht⟩
            · exact absurd hX (by simp)
            · refine Or.inr ⟨t, ?_⟩
              rcases List.mem_cons.mp (hperm.mem_iff.mp ht) with heq | hmem
              · exact absurd (congrArg Prod.snd heq) hqne
              · exact hmem
        have RR := ih _ s' h hw₁
        obtain ⟨tlE, htlE⟩ := RR.exec_ext
        obtain ⟨tlD, htlD⟩ := RR.disc_ext
        dsimp only at htlE htlD
        have hEdrop : s'.executed.drop s.executed.length = tlE := by
          rw [htlE]
          exact List.drop_left _ _
        have hDdrop : s'.discarded.drop s.discarded.length = (tr.time, p.2) :: tlD := by
          rw [htlD, List.append_assoc]
          exact List.drop_left _ _
        have hD₁drop : s'.discarded.drop (s.discarded ++ [(tr.time, p.2)]).length = tlD := by
          rw [htlD]
          exact List.drop_left _ _
        have hdr := RR.drain
        dsimp only at hdr
        rw [hEdrop, hD₁drop] at hdr
        have hEsub : ∀ x, x ∈ tlE.map Prod.snd →
            x ∈ heapIds h' ++ List.range' s.nextId (s'.nextId - s.nextId) := by
          intro x hx
          exact hdr.subset (List.mem_append_left _ hx)
        have hpE : p.2 ∉ tlE.map Prod.snd := by
          intro hx
          rcases List.mem_append.mp (hEsub p.2 hx) with h1 | h2
          · exact hpnotin h1
          · rw [List.mem_range'_1] at h2
            omega
        constructor
        · exact RR.wf'
        · exact RR.heapNil
        · exact ⟨tlE, htlE⟩
        · exact ⟨(tr.time, p.2) :: tlD, by rw [htlD, List.append_assoc]; rfl⟩
        · exact RR.nextId_le
        · rw [hEdrop, hDdrop]
          simp only [List.map_cons]
          refine List.Perm.trans List.perm_middle ?_
          refine (hdr.cons p.2).trans ?_
          have hRHS : (heapIds s.heap ++ List.range' s.nextId (s'.nextId - s.nextId)).Perm
              (p.2 :: (heapIds h' ++ List.range' s.nextId (s'.nextId - s.nextId))) := by
            have := hidp.append_right (List.range' s.nextId (s'.nextId - s.nextId))
            simpa using this
          exact hRHS.symm
        · intro i tri hli hci
          rw [hEdrop]
          by_cases hip : i = p.2
          · subst hip
            exact hpE
          · have hskip := RR.cancelSkip i tri
              (by
                dsimp only
                rw [sLookup_sRemove_ne s.store hip]
                exact hli) hci
            dsimp only at hskip
            rw [hEdrop] at hskip
            exact hskip
        · intro e he tri hli
          rw [hEdrop] at he
          have heE : e.2 ∈ tlE.map Prod.snd := List.mem_map.mpr ⟨e, he, rfl⟩
          have hep : e.2 ≠ p.2 := by
            intro hh
            exact hpE (hh ▸ heE)
          have := RR.execTime e
            (by
              dsimp only
              rw [hEdrop]
              exact he) tri
            (by
              dsimp only
              rw [sLookup_sRemove_ne s.store hep]
              exact hli)
          exact this
      · -- the popped trigger executes: clock set to its time, action run, then dropped
        rw [if_neg hc] at h
        set s₁ : Timeline T := { s with
          heap := h'
          time := tr.time
          executed := s.executed ++ [(tr.time, p.2)] } with hs₁
        set s₂ : Timeline T := execAct tr.action s₁ with hs₂
        set s₃ : Timeline T := { s₂ with store := sRemove s₂.store p.2 } with hs₃
        have hs₁nextId : s₁.nextId = s.nextId := rfl
        have hs₁exec : s₁.executed = s.executed ++ [(tr.time, p.2)] := rfl
        have hs₁disc : s₁.discarded = s.discarded := rfl
        have hs₁heap : s₁.heap = h' := rfl
        have hs₁store : s₁.store = s.store := rfl
        have hs₃heap : s₃.heap = s₂.heap := rfl
        have hs₃store : s₃.store = sRemove s₂.store p.2 := rfl
        have hs₃exec : s₃.executed = s₂.executed := rfl
        have hs₃disc : s₃.discarded = s₂.discarded := rfl
        have hs₃next : s₃.nextId = s₂.nextId := rfl
        have hw₁ : WFx s₁ (some p.2) := by
          constructor
          · exact hndh'
          · exact hw.storeNodup
          · intro q hq
            exact hw.heapBound q (hperm.mem_iff.mpr (List.mem_cons_of_mem _ hq))
          · exact hw.storeBound
          · intro q hq
            exact hw.align q (hperm.mem_iff.mpr (List.mem_cons_of_mem _ hq))
          · intro q hq
            rcases hw.inQueue q hq with hX | ⟨t, ht⟩
            · exact absurd hX (by simp)
            · rcases List.mem_cons.mp (hperm.mem_iff.mp ht) with heq | hmem
              · left
                exact congrArg some (congrArg Prod.snd heq)
              · exact Or.inr ⟨t, hmem⟩
        have ER : ExecRel s₁ s₂ := execAct_rel tr.action s₁
        have hw₂ : WFx s₂ (some p.2) := execAct_WFx tr.action hw₁
        have hp2notin₂ : p.2 ∉ heapIds s₂.heap := by
          intro hmem
          rcases List.mem_append.mp (ER.heapIds_perm.subset hmem) with h1 | h2
          · rw [hs₁heap] at h1
            exact hpnotin h1
          · rw [List.mem_range'_1, hs₁nextId] at h2
            omega
        have hw₃ : WFq s₃ := by
          constructor
          · rw [hs₃heap]
            exact hw₂.heapNodup
          · rw [hs₃store]
            exact List.Sublist.nodup ((sRemove_sublist s₂.store p.2).map Prod.fst) hw₂.storeNodup
          · rw [hs₃heap, hs₃next]
            exact hw₂.heapBound
          · rw [hs₃store, hs₃next]
            intro q hq
            exact hw₂.storeBound q ((sRemove_sublist s₂.store p.2).subset hq)
          · rw [hs₃heap, hs₃store]
            intro q hq
            obtain ⟨tr', hl', ht'⟩ := hw₂.align q hq
            have hqne : q.2 ≠ p.2 := by
              intro he
              exact hp2notin₂ (he ▸ List.mem_map.mpr ⟨q, hq, rfl⟩)
            refine ⟨tr', ?_, ht'⟩
            rw [sLookup_sRemove_ne s₂.store hqne]
            exact hl'
          · rw [hs₃store, hs₃heap]
            intro q hq
            obtain ⟨hqs, hqne⟩ := mem_sRemove_nodup hw₂.storeNodup hq
            rcases hw₂.inQueue q hqs with hX | hmem
            · exact absurd (Option.some_inj.mp hX) hqne
            · exact Or.inr hmem
        have RR := ih s₃ s' h hw₃
        obtain ⟨tlE, htlE⟩ := RR.exec_ext
        obtain ⟨tlD, htlD⟩ := RR.disc_ext
        have hexecs₃ : s₃.executed = s.executed ++ [(tr.time, p.2)] := by
          rw [hs₃exec, ER.executed_eq, hs₁exec]
        have hdiscs₃ : s₃.discarded = s.discarded := by
          rw [hs₃disc, ER.discarded_eq, hs₁disc]
        have hnext₁₂ : s.nextId ≤ s₂.nextId := by
          rw [← hs₁nextId]
          exact ER.nextId_le
        have hnext₂' : s₂.nextId ≤ s'.nextId := by
          rw [← hs₃next]
          exact RR.nextId_le
        have hEdrop : s'.executed.drop s.executed.length = (tr.time, p.2) :: tlE := by
          rw [htlE, hexecs₃, List.append_assoc]
          exact List.drop_left _ _
        have hE₃drop : s'.executed.drop s₃.executed.length = tlE := by
          rw [htlE]
          exact List.drop_left _ _
        have hDdrop : s'.discarded.drop s.discarded.length = tlD := by
          rw [htlD, hdiscs₃]
          exact List.drop_left _ _
        have hD₃drop : s'.discarded.drop s₃.discarded.length = tlD := by
          rw [htlD]
          exact List.drop_left _ _
        have hdr := RR.drain
        rw [hE₃drop, hD₃drop] at hdr
        have hheap₃ : (heapIds s₃.heap).Perm
            (heapIds h' ++ List.range' s.nextId (s₂.nextId - s.nextId)) := by
          rw [hs₃heap]
          have := ER.heapIds_perm
          rw [hs₁heap, hs₁nextId] at this
          exact this
        have hpe2 : ∀ x, x ∈ tlE.map Prod.snd → x ≠ p.2 := by
          intro x hx hxe
          subst hxe
          have hsubm := hdr.subset (List.mem_append_left _ hx)
          rcases List.mem_append.mp hsubm with h1 | h2
          · exact hp2notin₂ (by rw [← hs₃heap]; exact h1)
          · rw [List.mem_range'_1, hs₃next] at h2
            omega
        constructor
        · exact RR.wf'
        · exact RR.heapNil
        · refine ⟨(tr.time, p.2) :: tlE, ?_⟩
          rw [htlE, hexecs₃, List.append_assoc]
          rfl
        · exact ⟨tlD, by rw [htlD, hdiscs₃]⟩
        · exact le_trans hnext₁₂ hnext₂'
        · rw [hEdrop, hDdrop]
          simp only [List.map_cons, List.cons_append]
          refine (hdr.cons p.2).trans ?_
          have hsplit : List.range' s.nextId (s₂.nextId - s.nextId) ++
              List.range' s₂.nextId (s'.nextId - s₂.nextId) =
              List.range' s.nextId (s'.nextId - s.nextId) := by
            have harg := List.range'_append_1 s.nextId (s₂.nextId - s.nextId)
              (s'.nextId - s₂.nextId)
            have he : s.nextId + (s₂.nextId - s.nextId) = s₂.nextId := by omega
            rw [he] at harg
            rw [harg]
            congr 1
            omega
          have hmid : (heapIds s₃.heap ++
              List.range' s₃.nextId (s'.nextId - s₃.nextId)).Perm
              (heapIds h' ++ List.range' s.nextId (s'.nextId - s.nextId)) := by
            rw [hs₃next]
            refine (hheap₃.append_right _).trans ?_
            rw [List.append_assoc, hsplit]
          refine (hmid.cons p.2).trans ?_
          have hRHS : (heapIds s.heap ++ List.range' s.nextId (s'.nextId - s.nextId)).Perm
              (p.2 :: (heapIds h' ++ List.range' s.nextId (s'.nextId - s.nextId))) := by
            have := hidp.append_right (List.range' s.nextId (s'.nextId - s.nextId))
            simpa using this
          exact hRHS.symm
        · intro i tri hli hci
          have hip : i ≠ p.2 := by
            intro he
            subst he
            rw [hlook] at hli
            obtain rfl := (Option.some_inj.mp hli).symm
            exact hc hci
          have hbsi : i < s.nextId := hw.storeBound (i, tri) (sLookup_mem hli)
          have hli₁ : sLookup s₁.store i = some tri := by
            rw [hs₁store]
            exact hli
          obtain ⟨tri', hli₂, _, _, hcmono⟩ := ER.lookup_mono i tri
            (by rw [hs₁nextId]; exact hbsi) hli₁
          have hli₃ : sLookup s₃.store i = some tri' := by
            rw [hs₃store, sLookup_sRemove_ne s₂.store hip]
            exact hli₂
          have hskip := RR.cancelSkip i tri' hli₃ (hcmono hci)
          rw [hE₃drop] at hskip
          rw [hEdrop]
          simp only [List.map_cons, List.mem_cons]
          push_neg
          exact ⟨hip, hskip⟩
        · intro e he tri hli
          rw [hEdrop] at he
          rcases List.mem_cons.mp he with rfl | hmem
          · rw [hlook] at hli
            obtain rfl := (Option.some_inj.mp hli).symm
            rfl
          · have heE : e.2 ∈ tlE.map Prod.snd := List.mem_map.mpr ⟨e, hmem, rfl⟩
            have hep : e.2 ≠ p.2 := hpe2 e.2 heE
            have hbse : e.2 < s.nextId := hw.storeBound (e.2, tri) (sLookup_mem hli)
            have hli₁ : sLookup s₁.store e.2 = some tri := by
              rw [hs₁store]
              exact hli
            obtain ⟨tri', hli₂, htieq, _, _⟩ := ER.lookup_mono e.2 tri
              (by rw [hs₁nextId]; exact hbse) hli₁
            have hli₃ : sLookup s₃.store e.2 = some tri' := by
              rw [hs₃store, sLookup_sRemove_ne s₂.store hep]
              exact hli₂
            have hret := RR.execTime e (by rw [hE₃drop]; exact hmem) tri' hli₃
            rw [hret]
            exact htieq

/-- Master lemma for the ordering behaviour of `run`: the clock only moves forward,
the executed trace stays sorted by due time, and the final clock is the time of the
last executed entry (or is untouched when nothing ran). -/
theorem runAux_ord {T : Type} [LinearOrderedAddCommGroup T] :
    ∀ (fuel : ℕ) (s s' : Timeline T), runAux fuel s = some s' → InvB s → RunRelB s s' := by
  intro fuel
  induction fuel with
  | zero =>
    intro s s' h _
    simp [runAux] at h
  | succ fuel ih =>
    intro s s' h hB
    have hw := hB.wf
    rw [runAux_succ] at h
    cases hpop : heapPop (0, 0) trLe s.heap with
    | none =>
      rw [hpop] at h
      dsimp only at h
      obtain rfl := Option.some_inj.mp h
      exact ⟨hB, le_refl _, ⟨[], by simp⟩, fun _ => rfl, fun hne => absurd rfl hne⟩
    | some ph =>
      obtain ⟨p, h'⟩ := ph
      rw [hpop] at h
      dsimp only at h
      have hperm : s.heap.Perm (p :: h') := heapPop_perm (0,0) trLe hpop
      have hidp : (heapIds s.heap).Perm (p.2 :: heapIds h') := hperm.map Prod.snd
      have hpmem : p ∈ s.heap := hperm.mem_iff.mpr (List.mem_cons_self _ _)
      have hnodc : (p.2 :: heapIds h').Nodup := (hidp.nodup_iff).mp hw.heapNodup
      have hpnotin : p.2 ∉ heapIds h' := (List.nodup_cons.mp hnodc).1
      have hndh' : (heapIds h').Nodup := (List.nodup_cons.mp hnodc).2
      have hbp : p.2 < s.nextId := hw.heapBound p hpmem
      obtain ⟨tr, hlook, htime⟩ := hw.align p hpmem
      obtain ⟨_, hinvh', hmax⟩ := heapPop_spec (0,0) trLe trLe_tot trLe_trans hB.hinv hpop
      have hmin : ∀ y ∈ s.heap, p.1 ≤ y.1 := by
        intro y hy
        have := hmax y hy
        simpa [trLe] using this
      have hple : s.time ≤ p.1 := hB.pend p hpmem
      rw [hlook] at h
      dsimp only at h
      by_cases hc : tr.cancelled = true
      · rw [if_pos hc] at h
        have hw₁ : WFq ({ s with
            heap := h'
            store := sRemove s.store p.2
            discarded := s.discarded ++ [(tr.time, p.2)] } : Timeline T) := by
          constructor
          · exact hndh'
          · exact List.Sublist.nodup ((sRemove_sublist s.store p.2).map Prod.fst) hw.storeNodup
          · intro q hq
            exact hw.heapBound q (hperm.mem_iff.mpr (List.mem_cons_of_mem _ hq))
          · intro q hq
            exact hw.storeBound q ((sRemove_sublist s.store p.2).subset hq)
          · intro q hq
            have hqmem : q ∈ s.heap := hperm.mem_iff.mpr (List.mem_cons_of_mem _ hq)
            obtain ⟨tr', hl', ht'⟩ := hw.align q hqmem
            have hqne : q.2 ≠ p.2 := by
              intro he
              apply hpnotin
              rw [← he]
              exact List.mem_map.mpr ⟨q, hq, rfl⟩
            refine ⟨tr', ?_, ht'⟩
            rw [sLookup_sRemove_ne s.store hqne]
            exact hl'
          · intro q hq
            obtain ⟨hqs, hqne⟩ := mem_sRemove_nodup hw.storeNodup hq
            rcases hw.inQueue q hqs with hX | ⟨t, ht⟩
            · exact absurd hX (by simp)
            · refine Or.inr ⟨t, ?_⟩
              rcases List.mem_cons.mp (hperm.mem_iff.mp ht) with heq | hmem
              · exact absurd (congrArg Prod.snd heq) hqne
              · exact hmem
        have hB₁ : InvB ({ s with
            heap := h'
            store := sRemove s.store p.2
            discarded := s.discarded ++ [(tr.time, p.2)] } : Timeline T) := by
          refine ⟨hw₁, hinvh', ?_, ?_, hB.sorted, hB.bound⟩
          · intro q hq
            exact hB.pend q (hperm.mem_iff.mpr (List.mem_cons_of_mem _ hq))
          · intro q hq
            exact hB.nonneg q ((sRemove_sublist s.store p.2).subset hq)
        have RB := ih _ s' h hB₁
        refine ⟨RB.invB', RB.time_mono, RB.exec_ext, RB.noExec, RB.lastExec⟩
      · rw [if_neg hc] at h
        set s₁ : Timeline T := { s with
          heap := h'
          time := tr.time
          executed := s.executed ++ [(tr.time, p.2)] } with hs₁
        set s₂ : Timeline T := execAct tr.action s₁ with hs₂
        set s₃ : Timeline T := { s₂ with store := sRemove s₂.store p.2 } with hs₃
        have hs₁nextId : s₁.nextId = s.nextId := rfl
        have hs₁exec : s₁.executed = s.executed ++ [(tr.time, p.2)] := rfl
        have hs₁heap : s₁.heap = h' := rfl
        have hs₁store : s₁.store = s.store := rfl
        have hs₁time : s₁.time = tr.time := rfl
        have hw₁ : WFx s₁ (some p.2) := by
          constructor
          · exact hndh'
          · exact hw.storeNodup
          · intro q hq
            exact hw.heapBound q (hperm.mem_iff.mpr (List.mem_cons_of_mem _ hq))
          · exact hw.storeBound
          · intro q hq
            exact hw.align q (hperm.mem_iff.mpr (List.mem_cons_of_mem _ hq))
          · intro q hq
            rcases hw.inQueue q hq with hX | ⟨t, ht⟩
            · exact absurd hX (by simp)
            · rcases List.mem_cons.mp (hperm.mem_iff.mp ht) with heq | hmem
              · left
                exact congrArg some (congrArg Prod.snd heq)
              · exact Or.inr ⟨t, hmem⟩
        have ER : ExecRel s₁ s₂ := execAct_rel tr.action s₁
        have hw₂ : WFx s₂ (some p.2) := execAct_WFx tr.action hw₁
        have hp2notin₂ : p.2 ∉ heapIds s₂.heap := by
          intro hmem
          rcases List.mem_append.mp (ER.heapIds_perm.subset hmem) with h1 | h2
          · rw [hs₁heap] at h1
            exact hpnotin h1
          · rw [List.mem_range'_1, hs₁nextId] at h2
            omega
        -- the executed action's body only requests non-negative delays
        have hact : tr.action.nonneg = true := hB.nonneg (p.2, tr) (sLookup_mem hlook)
        have hord₁ : heapInvP (0,0) trLe s₁.heap ∧ pendingGE s₁ ∧ storeNonneg s₁ := by
          refine ⟨by rw [hs₁heap]; exact hinvh', ?_, ?_⟩
          · intro q hq
            rw [hs₁heap] at hq
            rw [hs₁time, htime]
            exact hmin q (hperm.mem_iff.mpr (List.mem_cons_of_mem _ hq))
          · intro q hq
            rw [hs₁store] at hq
            exact hB.nonneg q hq
        have hord₂ := execAct_ord tr.action hact hord₁.1 hord₁.2.1 hord₁.2.2
        have hB₃ : InvB s₃ := by
          refine ⟨?_, ?_, ?_, ?_, ?_, ?_⟩
          · constructor
            · exact hw₂.heapNodup
            · exact List.Sublist.nodup ((sRemove_sublist s₂.store p.2).map Prod.fst)
                hw₂.storeNodup
            · exact hw₂.heapBound
            · intro q hq
              exact hw₂.storeBound q ((sRemove_sublist s₂.store p.2).subset hq)
            · intro q hq
              obtain ⟨tr', hl', ht'⟩ := hw₂.align q hq
              have hqne : q.2 ≠ p.2 := by
                intro he
                exact hp2notin₂ (he ▸ List.mem_map.mpr ⟨q, hq, rfl⟩)
              refine ⟨tr', ?_, ht'⟩
              show sLookup (sRemove s₂.store p.2) q.2 = some tr'
              rw [sLookup_sRemove_ne s₂.store hqne]
              exact hl'
            · intro q hq
              obtain ⟨hqs, hqne⟩ := mem_sRemove_nodup hw₂.storeNodup hq
              rcases hw₂.inQueue q hqs with hX | hmem
              · exact absurd (Option.some_inj.mp hX) hqne
              · exact Or.inr hmem
          · exact hord₂.1
          · exact hord₂.2.1
          · intro q hq
            exact hord₂.2.2 q ((sRemove_sublist s₂.store p.2).subset hq)
          · show List.Pairwise _ s₂.executed
            rw [ER.executed_eq, hs₁exec]
            rw [List.pairwise_append]
            refine ⟨hB.sorted, by simp, ?_⟩
            intro a ha b hb
            simp only [List.mem_singleton] at hb
            subst hb
            calc a.1 ≤ s.time := hB.bound a ha
            _ ≤ p.1 := hple
            _ = tr.time := htime.symm
          · intro e he
            show e.1 ≤ s₂.time
            rw [ER.executed_eq, hs₁exec] at he
            rw [ER.time_eq, hs₁time]
            rcases List.mem_append.mp he with hmem | hmem
            · calc e.1 ≤ s.time := hB.bound e hmem
              _ ≤ p.1 := hple
              _ = tr.time := htime.symm
            · simp only [List.mem_singleton] at hmem
              subst hmem
              exact le_refl _
        have RB := ih s₃ s' h hB₃
        obtain ⟨tlE, htlE⟩ := RB.exec_ext
        have hexecs₃ : s₃.executed = s.executed ++ [(tr.time, p.2)] := by
          show s₂.executed = _
          rw [ER.executed_eq, hs₁exec]
        have htime₃ : s₃.time = tr.time := by
          show s₂.time = _
          rw [ER.time_eq, hs₁time]
        have hexts : s'.executed = s.executed ++ ((tr.time, p.2) :: tlE) := by
          rw [htlE, hexecs₃, List.append_assoc]
          rfl
        have hneq : s'.executed ≠ s.executed := by
          intro heq
          have := congrArg List.length heq
          rw [hexts] at this
          simp at this
        refine ⟨RB.invB', ?_, ⟨(tr.time, p.2) :: tlE, hexts⟩, ?_, ?_⟩
        · calc s.time ≤ p.1 := hple
          _ = tr.time := htime.symm
          _ = s₃.time := htime₃.symm
          _ ≤ s'.time := RB.time_mono
        · intro heq
          exact absurd heq hneq
        · intro _
          by_cases hsame : s'.executed = s₃.executed
          · refine ⟨(tr.time, p.2), ?_, ?_⟩
            · rw [hsame, hexecs₃]
              exact List.getLast?_concat _
            · rw [RB.noExec hsame, htime₃]
          · exact RB.lastExec hsame
/-! ## Initial states satisfy the invariants -/

theorem WFq_newTimeline (T : Type) [LinearOrderedAddCommGroup T] : WFq (newTimeline T) := by
  constructor
  · simp [newTimeline, heapIds]
  · simp [newTimeline, storeIds]
  · intro p hp
    simp [newTimeline] at hp
  · intro q hq
    simp [newTimeline] at hq
  · intro p hp
    simp [newTimeline] at hp
  · intro q hq
    simp [newTimeline] at hq

theorem InvB_newTimeline (T : Type) [LinearOrderedAddCommGroup T] : InvB (newTimeline T) := by
  refine ⟨WFq_newTimeline T, ?_, ?_, ?_, ?_, ?_⟩
  · intro i h0 hi
    simp [newTimeline] at hi
  · intro p hp
    simp [newTimeline] at hp
  · intro q hq
    simp [newTimeline] at hq
  · simp [newTimeline]
  · intro e he
    simp [newTimeline] at he

theorem InvB_schedule {T : Type} [LinearOrderedAddCommGroup T] {s : Timeline T}
    (hB : InvB s) {dl : T} (hdl : 0 ≤ dl) {a : Act T} (ha : a.nonneg = true) :
    InvB (schedule s dl a).1 := by
  refine ⟨WFx_schedule hB.wf dl a, ?_, ?_, ?_, ?_, ?_⟩
  · exact heapPush_inv (0,0) trLe trLe_tot trLe_trans _ hB.hinv
  · intro p hp
    rw [schedule_time]
    rcases List.mem_cons.mp ((schedule_heap_perm s dl a).mem_iff.mp hp) with rfl | hmem
    · exact le_add_of_nonneg_right hdl
    · exact hB.pend p hmem
  · intro q hq
    rw [schedule_store] at hq
    rcases List.mem_cons.mp hq with rfl | hmem
    · exact ha
    · exact hB.nonneg q hmem
  · rw [schedule_executed]
    exact hB.sorted
  · rw [schedule_executed, schedule_time]
    exact hB.bound

theorem InvB_cancelOp {T : Type} [LinearOrderedAddCommGroup T] {s : Timeline T}
    (hB : InvB s) (h : ℕ) : InvB (cancelOp s h) := by
  refine ⟨WFx_cancelOp hB.wf h, ?_, ?_, ?_, ?_, ?_⟩
  · rw [cancelOp_heap]
    exact hB.hinv
  · intro p hp
    rw [cancelOp_heap] at hp
    rw [cancelOp_time]
    exact hB.pend p hp
  · intro q hq
    unfold cancelOp at hq
    cases hl : sLookup s.store h with
    | none =>
      rw [hl] at hq
      exact hB.nonneg q hq
    | some tr =>
      rw [hl] at hq
      rcases mem_sSet hq with hmem | ⟨_, hq2⟩
      · exact hB.nonneg q hmem
      · rw [hq2]
        exact hB.nonneg (h, tr) (sLookup_mem hl)
  · rw [cancelOp_executed]
    exact hB.sorted
  · rw [cancelOp_executed, cancelOp_time]
    exact hB.bound

theorem InvB_mkTimeline {T : Type} [LinearOrderedAddCommGroup T] (items : List (T × Act T))
    (hnn : ∀ it ∈ items, 0 ≤ it.1 ∧ it.2.nonneg = true) : InvB (mkTimeline items) := by
  have hgen : ∀ (its : List (T × Act T)) (s : Timeline T), InvB s →
      (∀ it ∈ its, 0 ≤ it.1 ∧ it.2.nonneg = true) →
      InvB (its.foldl (fun s it => (schedule s it.1 it.2).1) s) := by
    intro its
    induction its with
    | nil => intro s hB _; exact hB
    | cons it r ih =>
      intro s hB hok
      simp only [List.foldl_cons]
      exact ih _ (InvB_schedule hB (hok it (List.mem_cons_self _ _)).1
        (hok it (List.mem_cons_self _ _)).2)
        (fun j hj => hok j (List.mem_cons_of_mem _ hj))
  exact hgen items (newTimeline T) (InvB_newTimeline T) hnn

theorem WFq_mkTimeline {T : Type} [LinearOrderedAddCommGroup T] (items : List (T × Act T)) :
    WFq (mkTimeline items) := by
  have hgen : ∀ (its : List (T × Act T)) (s : Timeline T), WFq s →
      WFq (its.foldl (fun s it => (schedule s it.1 it.2).1) s) := by
    intro its
    induction its with
    | nil => intro s hwf; exact hwf
    | cons it r ih =>
      intro s hwf
      simp only [List.foldl_cons]
      exact ih _ (WFx_schedule hwf it.1 it.2)
  exact hgen items (newTimeline T) (WFq_newTimeline T)

theorem sSet_sSet {T : Type} :
    ∀ (st : List (ℕ × Trigger T)) (i : ℕ) (a b : Trigger T),
      sSet (sSet st i a) i b = sSet st i b := by
  intro st
  induction st with
  | nil => intro i a b; rfl
  | cons q r ih =>
    intro i a b
    obtain ⟨k, tq⟩ := q
    by_cases hk : k = i
    · have h1 : sSet ((k, tq) :: r) i a = (k, a) :: r := by
        unfold sSet
        rw [if_pos hk]
      have h2 : sSet ((k, tq) :: r) i b = (k, b) :: r := by
        unfold sSet
        rw [if_pos hk]
      rw [h1, h2]
      unfold sSet
      rw [if_pos hk]
    · have h1 : sSet ((k, tq) :: r) i a = (k, tq) :: sSet r i a := by
        simp only [sSet]
        rw [if_neg hk]
      have h2 : sSet ((k, tq) :: r) i b = (k, tq) :: sSet r i b := by
        simp only [sSet]
        rw [if_neg hk]
      rw [h1, h2]
      simp only [sSet]
      rw [if_neg hk, ih]

theorem cancelOp_idem {T : Type} (s : Timeline T) (i : ℕ) :
    cancelOp (cancelOp s i) i = cancelOp s i := by
  cases hl : sLookup s.store i with
  | none =>
    have h1 : cancelOp s i = s := by
      unfold cancelOp
      rw [hl]
    rw [h1]
    exact h1
  | some tr =>
    have h1 : cancelOp s i = { s with store := sSet s.store i { tr with cancelled := true } } := by
      unfold cancelOp
      rw [hl]
    set trc : Trigger T := { tr with cancelled := true } with htrc
    rw [h1]
    have h2 : sLookup (sSet s.store i trc) i = some trc := sLookup_sSet_self hl
    have h3 : cancelOp ({ s with store := sSet s.store i trc } : Timeline T) i =
        { s with store := sSet (sSet s.store i trc) i { trc with cancelled := true } } := by
      unfold cancelOp
      rw [h2]
    rw [h3, sSet_sSet]

theorem cancelOp_stale {T : Type} (s : Timeline T) (i : ℕ)
    (h : sLookup s.store i = none) : cancelOp s i = s := by
  unfold cancelOp
  rw [h]

/-! ## Additional helper: the heap of any freshly scheduled timeline is a heap -/

theorem heapInv_mkTimeline {T : Type} [LinearOrderedAddCommGroup T]
    (items : List (T × Act T)) : heapInvP (0, 0) trLe (mkTimeline items).heap := by
  have hgen : ∀ (its : List (T × Act T)) (s : Timeline T), heapInvP (0,0) trLe s.heap →
      heapInvP (0,0) trLe ((its.foldl (fun s it => (schedule s it.1 it.2).1) s).heap) := by
    intro its
    induction its with
    | nil => intro s h; exact h
    | cons it r ih =>
      intro s h
      simp only [List.foldl_cons]
      exact ih _ (heapPush_inv (0,0) trLe trLe_tot trLe_trans _ h)
  apply hgen items (newTimeline T)
  intro i h0 hi
  simp [newTimeline] at hi

/-! ## The claims -/

/-- C1 (counterexample): `schedule` with the negative delay `-1` on a fresh timeline
does *not* raise any error and does *not* leave the queue unmodified: the entry is
inserted (queue length goes from 0 to 1) with a due time strictly before the clock.
The Rust source has no `CausalityViolation` (or any other) error path. -/
theorem C1_counterexample :
    (schedule (newTimeline ℤ) (-1) Act.done).1.heap = [(-1, 0)] ∧
    (newTimeline ℤ).heap = [] ∧
    (-1 : ℤ) < (newTimeline ℤ).time := by decide

/-- C1 (amended): `schedule` never fails, for any delay (negative ones included):
it always inserts one entry, due at `clock + delay`, growing the queue by exactly
one, and never mutates the clock. -/
theorem C1_schedule_total {T : Type} [LinearOrderedAddCommGroup T] (s : Timeline T)
    (dl : T) (a : Act T) :
    (schedule s dl a).1.heap.length = s.heap.length + 1 ∧
    (schedule s dl a).1.time = s.time ∧
    (s.time + dl, s.nextId) ∈ (schedule s dl a).1.heap := by
  refine ⟨?_, rfl, ?_⟩
  · rw [(schedule_heap_perm s dl a).length_eq]
    rfl
  · exact (schedule_heap_perm s dl a).mem_iff.mpr (List.mem_cons_self _ _)

/-- C2 (counterexample): schedule four entries with delays `0, 1, 1, 2` (arrival ids
`0, 1, 2, 3`).  The two entries with equal due time `1` are the ones with arrival ids
`1` and `2`; `run` executes id `2` *before* id `1`, so equal due times are *not*
broken by arrival order (the binary heap ignores arrival order). -/
theorem C2_counterexample :
    Option.map Timeline.executed
      (runAux 9 (mkTimeline [((0:ℤ), Act.done), (1, Act.done), (1, Act.done), (2, Act.done)])) =
    some [(0, 0), (1, 2), (1, 1), (2, 3)] := by decide

/-- C2 (amended): the ordering queue always yields an entry of minimal due time, but
the order among entries of equal due time is the binary heap's internal order, not
arrival order. -/
theorem C2_pop_min {T : Type} [LinearOrderedAddCommGroup T] {s : Timeline T}
    {p : T × ℕ} {h' : List (T × ℕ)} (hinv : heapInvP (0, 0) trLe s.heap)
    (hpop : heapPop (0, 0) trLe s.heap = some (p, h')) :
    ∀ q ∈ s.heap, p.1 ≤ q.1 := by
  intro q hq
  have := (heapPop_spec (0,0) trLe trLe_tot trLe_trans hinv hpop).2.2 q hq
  simpa [trLe] using this

theorem C2_pop_min_witness :
    ((((0:ℤ), (0:ℕ))) : ℤ × ℕ).1 ≤ ((((2:ℤ), (3:ℕ))) : ℤ × ℕ).1 :=
  @C2_pop_min ℤ _ (mkTimeline [((0:ℤ), Act.done), (1, Act.done), (1, Act.done), (2, Act.done)])
    ((0:ℤ), 0) [((1:ℤ), 2), (1, 1), (2, 3)] (heapInv_mkTimeline _)
    (show heapPop (0,0) trLe
        (mkTimeline [((0:ℤ), Act.done), (1, Act.done), (1, Act.done), (2, Act.done)]).heap =
      some (((0:ℤ), 0), [((1:ℤ), 2), (1, 1), (2, 3)]) by decide)
    ((2:ℤ), 3) (by decide)

/-- C3: for any starting batch of scheduled entries whose delays are non-negative and
whose actions only ever request non-negative delays (including all reentrantly
scheduled ones), a completed `run` executes actions in non-decreasing due-time
order: the trace of invocations (recorded as `(due_time, arrival_id)` in invocation
order) is sorted by due time. -/
theorem C3_run_sorted {T : Type} [LinearOrderedAddCommGroup T] (items : List (T × Act T))
    (hnn : ∀ it ∈ items, 0 ≤ it.1 ∧ it.2.nonneg = true)
    {fuel : ℕ} {s' : Timeline T} (hrun : runAux fuel (mkTimeline items) = some s') :
    List.Pairwise (fun a b : T × ℕ => a.1 ≤ b.1) s'.executed :=
  (runAux_ord fuel _ s' hrun (InvB_mkTimeline items hnn)).invB'.sorted

theorem C3_run_sorted_witness :
    List.Pairwise (fun a b : ℤ × ℕ => a.1 ≤ b.1)
      ((runAux 5 (mkTimeline [((3:ℤ), Act.done), (1, Act.done), (2, Act.done)])).getD
        (newTimeline ℤ)).executed :=
  C3_run_sorted [((3:ℤ), Act.done), (1, Act.done), (2, Act.done)] (by decide)
    (show runAux 5 (mkTimeline [((3:ℤ), Act.done), (1, Act.done), (2, Act.done)]) =
      some ((runAux 5 (mkTimeline [((3:ℤ), Act.done), (1, Act.done), (2, Act.done)])).getD
        (newTimeline ℤ)) by decide)

/-- C4 (counterexample): with a negative delay the clock *decreases*: scheduling
delay `-1` on a fresh timeline (clock `0`) and running sets the clock to `-1 < 0`,
so the clock is not monotone over the timeline's life in general. -/
theorem C4_counterexample :
    Option.map Timeline.time (runAux 2 (schedule (newTimeline ℤ) (-1) Act.done).1) =
      some (-1) ∧
    (newTimeline ℤ).time = 0 ∧ (-1 : ℤ) < 0 := by decide

/-- C4 (amended): `schedule`, `cancel` and `now` never mutate the clock; a run moves
the clock exactly to the due times of the entries it executes — if nothing is
executed the clock is unchanged, otherwise the final clock is the recorded due time
of the last executed entry — and, provided the state satisfies the non-negative-delay
invariant (which the unchecked `schedule` cannot enforce), the clock never
decreases. -/
theorem C4_clock {T : Type} [LinearOrderedAddCommGroup T] :
    (∀ (s : Timeline T) (dl : T) (a : Act T), (schedule s dl a).1.time = s.time) ∧
    (∀ (s : Timeline T) (h : ℕ), (cancelOp s h).time = s.time) ∧
    (∀ s : Timeline T, nowT s = s.time) ∧
    (∀ (fuel : ℕ) (s s' : Timeline T), runAux fuel s = some s' → InvB s →
      s.time ≤ s'.time ∧
      (s'.executed = s.executed → s'.time = s.time) ∧
      (s'.executed ≠ s.executed →
        ∃ e ∈ s'.executed, s'.executed.getLast? = some e ∧ e.1 = s'.time)) := by
  refine ⟨fun s dl a => rfl, cancelOp_time, fun s => rfl, ?_⟩
  intro fuel s s' hrun hB
  have RB := runAux_ord fuel s s' hrun hB
  refine ⟨RB.time_mono, RB.noExec, ?_⟩
  intro hne
  obtain ⟨e, hl, ht⟩ := RB.lastExec hne
  obtain ⟨ys, hys⟩ := List.getLast?_eq_some_iff.mp hl
  exact ⟨e, by rw [hys]; simp, hl, ht⟩

theorem C4_clock_witness :
    (mkTimeline [((1:ℤ), Act.done), (2, Act.done)]).time ≤
      ((runAux 3 (mkTimeline [((1:ℤ), Act.done), (2, Act.done)])).getD (newTimeline ℤ)).time :=
  (C4_clock.2.2.2 3 (mkTimeline [((1:ℤ), Act.done), (2, Act.done)])
    ((runAux 3 (mkTimeline [((1:ℤ), Act.done), (2, Act.done)])).getD (newTimeline ℤ))
    (by decide) (InvB_mkTimeline _ (by decide))).1

/-- C5 (counterexample): an action executing at time `5` schedules delay `-3`
(accepted, since `schedule` checks nothing); the run then executes that entry at
time `2`, so after `run` the clock is `2` while the maximum executed due time is
`5`: `now()` does not equal the maximum executed due time. -/
theorem C5_counterexample :
    Option.map (fun s => (s.time, s.executed))
      (runAux 3 (schedule (newTimeline ℤ) 5 (Act.sched (-3) Act.done Act.done)).1) =
    some (2, [(5, 0), (2, 1)]) := by decide

/-- C5 (amended): under the non-negative-delay invariant, after a completed `run`
the clock equals the maximum executed due time — it is the time of some executed
entry and an upper bound of all of them — and when nothing was executed (queue empty
or everything cancelled) the clock is exactly what it was before the run. -/
theorem C5_now_max {T : Type} [LinearOrderedAddCommGroup T] (fuel : ℕ)
    (s s' : Timeline T) (hrun : runAux fuel s = some s') (hB : InvB s)
    (hempty : s.executed = []) :
    (s'.executed = [] → s'.time = s.time) ∧
    (s'.executed ≠ [] →
      (∃ e ∈ s'.executed, e.1 = s'.time) ∧ ∀ e ∈ s'.executed, e.1 ≤ s'.time) := by
  have RB := runAux_ord fuel s s' hrun hB
  constructor
  · intro hnil
    exact RB.noExec (by rw [hnil, hempty])
  · intro hne
    have hne' : s'.executed ≠ s.executed := by
      rw [hempty]
      exact hne
    obtain ⟨e, hl, ht⟩ := RB.lastExec hne'
    obtain ⟨ys, hys⟩ := List.getLast?_eq_some_iff.mp hl
    refine ⟨⟨e, by rw [hys]; simp, ht⟩, RB.invB'.bound⟩

theorem C5_now_max_witness :
    ((runAux 2 (cancelOp (mkTimeline [((2:ℤ), Act.done)]) 0)).getD (newTimeline ℤ)).time =
      (cancelOp (mkTimeline [((2:ℤ), Act.done)]) 0).time :=
  (C5_now_max 2 (cancelOp (mkTimeline [((2:ℤ), Act.done)]) 0)
    ((runAux 2 (cancelOp (mkTimeline [((2:ℤ), Act.done)]) 0)).getD (newTimeline ℤ))
    (by decide) (InvB_cancelOp (InvB_mkTimeline _ (by decide)) 0) rfl).1 (by decide)

/-- C6: a pending entry whose `cancelled` flag is set before it is popped is never
executed during a completed run; cancelling is idempotent (cancelling twice equals
cancelling once) and total (cancelling a handle whose entry no longer exists — the
`Weak` upgrade fails — is a silent no-op that changes nothing and raises nothing). -/
theorem C6_cancel {T : Type} [LinearOrderedAddCommGroup T] :
    (∀ (s : Timeline T) (i : ℕ) (tr : Trigger T), sLookup s.store i = some tr →
      tr.cancelled = true → ∀ (fuel : ℕ) (s' : Timeline T), runAux fuel s = some s' →
      WFq s → i ∉ (s'.executed.drop s.executed.length).map Prod.snd) ∧
    (∀ (s : Timeline T) (i : ℕ), cancelOp (cancelOp s i) i = cancelOp s i) ∧
    (∀ (s : Timeline T) (i : ℕ), sLookup s.store i = none → cancelOp s i = s) := by
  refine ⟨?_, cancelOp_idem, cancelOp_stale⟩
  intro s i tr hl hc fuel s' hrun hw
  exact (runAux_drain fuel s s' hrun hw).cancelSkip i tr hl hc

theorem C6_cancel_witness :
    (0 : ℕ) ∉ ((((runAux 2 (cancelOp (mkTimeline [((2:ℤ), Act.done)]) 0)).getD
      (newTimeline ℤ)).executed.drop
        (cancelOp (mkTimeline [((2:ℤ), Act.done)]) 0).executed.length).map Prod.snd) :=
  C6_cancel.1 (cancelOp (mkTimeline [((2:ℤ), Act.done)]) 0) 0 ⟨2, Act.done, true⟩
    (by decide) rfl 2
    ((runAux 2 (cancelOp (mkTimeline [((2:ℤ), Act.done)]) 0)).getD (newTimeline ℤ))
    (by decide) (WFx_cancelOp (WFq_mkTimeline _) 0)

/-- C7: scheduling `d ≥ 0` at a state whose clock is `t` — in particular,
reentrantly from an action running at virtual time `t` — creates the entry
`(t + d, i)` (where `i` is the fresh arrival id); any completed run consumes `i`
(executing it unless it gets cancelled, in which case it is discarded); if executed,
its invocation is recorded at time `t + d`; and the invocation trace is sorted by
due time, so `i` runs after every entry due strictly before `t + d` and before every
entry due strictly after `t + d`. -/
theorem C7_reentrant {T : Type} [LinearOrderedAddCommGroup T] (s : Timeline T)
    (d : T) (a : Act T) (hB : InvB s) (hd : 0 ≤ d) (ha : a.nonneg = true)
    (fuel : ℕ) (s' : Timeline T) (hrun : runAux fuel (schedule s d a).1 = some s') :
    sLookup (schedule s d a).1.store s.nextId = some ⟨s.time + d, a, false⟩ ∧
    (s.nextId ∈ (s'.executed.drop s.executed.length).map Prod.snd ∨
     s.nextId ∈ (s'.discarded.drop s.discarded.length).map Prod.snd) ∧
    (∀ e ∈ s'.executed.drop s.executed.length, e.2 = s.nextId → e.1 = s.time + d) ∧
    List.Pairwise (fun x y : T × ℕ => x.1 ≤ y.1) s'.executed ∧
    (∀ k₁ k₂ : ℕ, ∀ hk₁ : k₁ < s'.executed.length, ∀ hk₂ : k₂ < s'.executed.length,
      (s'.executed.get ⟨k₁, hk₁⟩).1 < (s'.executed.get ⟨k₂, hk₂⟩).1 → k₁ < k₂) := by
  have hB₀ : InvB (schedule s d a).1 := InvB_schedule hB hd ha
  have RD := runAux_drain fuel _ s' hrun hB₀.wf
  have RB := runAux_ord fuel _ s' hrun hB₀
  have hlook : sLookup (schedule s d a).1.store s.nextId = some ⟨s.time + d, a, false⟩ := by
    rw [schedule_store]
    show (if s.nextId = s.nextId then some (⟨s.time + d, a, false⟩ : Trigger T)
      else sLookup s.store s.nextId) = _
    rw [if_pos rfl]
  refine ⟨hlook, ?_, ?_, RB.invB'.sorted, ?_⟩
  · have hmem : s.nextId ∈ heapIds (schedule s d a).1.heap :=
      ((schedule_heapIds_perm s d a).mem_iff).mpr (List.mem_cons_self _ _)
    have hin := RD.drain.symm.subset (List.mem_append_left _ hmem)
    exact List.mem_append.mp hin
  · intro e he hei
    have := RD.execTime e he ⟨s.time + d, a, false⟩ (by rw [hei]; exact hlook)
    exact this
  · intro k₁ k₂ hk₁ hk₂ hlt
    by_contra hge
    push_neg at hge
    rcases Nat.lt_or_ge k₂ k₁ with hl2 | hl2
    · have := (List.pairwise_iff_get.mp RB.invB'.sorted) ⟨k₂, hk₂⟩ ⟨k₁, hk₁⟩ hl2
      exact absurd hlt (not_lt.mpr this)
    · have hk : k₁ = k₂ := by omega
      subst hk
      exact absurd hlt (lt_irrefl _)

theorem C7_reentrant_witness :
    (1 : ℕ) ∈ ((((runAux 3 (schedule (mkTimeline [((2:ℤ), Act.done)]) 1 Act.done).1).getD
        (newTimeline ℤ)).executed.drop
          (mkTimeline [((2:ℤ), Act.done)]).executed.length).map Prod.snd) ∨
    (1 : ℕ) ∈ ((((runAux 3 (schedule (mkTimeline [((2:ℤ), Act.done)]) 1 Act.done).1).getD
        (newTimeline ℤ)).discarded.drop
          (mkTimeline [((2:ℤ), Act.done)]).discarded.length).map Prod.snd) :=
  (C7_reentrant (mkTimeline [((2:ℤ), Act.done)]) 1 Act.done
    (InvB_mkTimeline _ (by decide)) (by decide) rfl 3
    ((runAux 3 (schedule (mkTimeline [((2:ℤ), Act.done)]) 1 Act.done).1).getD (newTimeline ℤ))
    (by decide)).2.1

/-- C8: a completed `run` returns exactly when the queue is empty: on an empty queue
it returns at once leaving the state untouched, and whenever it returns, no pending
entries remain and the consumed ids (executed plus discarded, during this run) are
exactly the ids pending at the start of the call together with every id handed out
by reentrant `schedule` calls during the run. -/
theorem C8_run_drains {T : Type} [LinearOrderedAddCommGroup T] :
    (∀ (fuel : ℕ) (s s' : Timeline T), runAux fuel s = some s' → WFq s →
      s'.heap = [] ∧
      ((s'.executed.drop s.executed.length).map Prod.snd ++
       (s'.discarded.drop s.discarded.length).map Prod.snd).Perm
        (heapIds s.heap ++ List.range' s.nextId (s'.nextId - s.nextId))) ∧
    (∀ (fuel : ℕ) (s : Timeline T), s.heap = [] → runAux (fuel + 1) s = some s) := by
  constructor
  · intro fuel s s' hrun hw
    have RD := runAux_drain fuel s s' hrun hw
    exact ⟨RD.heapNil, RD.drain⟩
  · intro fuel s hnil
    rw [runAux_succ]
    have hp : heapPop ((0 : T), 0) trLe s.heap = none := by
      rw [heapPop_eq_none_iff]
      exact hnil
    rw [hp]

theorem C8_run_drains_witness :
    ((runAux 3 (mkTimeline [((1:ℤ), Act.done), (2, Act.done)])).getD (newTimeline ℤ)).heap
      = [] :=
  (C8_run_drains.1 3 (mkTimeline [((1:ℤ), Act.done), (2, Act.done)])
    ((runAux 3 (mkTimeline [((1:ℤ), Act.done), (2, Act.done)])).getD (newTimeline ℤ))
    (by decide) (WFq_mkTimeline _)).1

/-- C10: handles are weak — the queue holds the only strong reference to a pending
trigger.  In any well-formed state, a handle whose id is no longer queued cannot be
upgraded and cancelling through it is a no-op; after a completed run the store is
empty (every trigger record has been dropped), so every outstanding handle is stale:
upgrading fails and cancellation through any handle changes nothing. -/
theorem C10_weak_handles {T : Type} [LinearOrderedAddCommGroup T] :
    (∀ (s : Timeline T) (i : ℕ), WFq s → i ∉ heapIds s.heap →
      upgradeH s i = none ∧ cancelOp s i = s) ∧
    (∀ (fuel : ℕ) (s s' : Timeline T), runAux fuel s = some s' → WFq s →
      s'.store = [] ∧ ∀ i, upgradeH s' i = none ∧ cancelOp s' i = s') := by
  have hstale : ∀ (s : Timeline T) (i : ℕ), WFq s → i ∉ heapIds s.heap →
      upgradeH s i = none ∧ cancelOp s i = s := by
    intro s i hw hmem
    have hl : sLookup s.store i = none := by
      cases hl : sLookup s.store i with
      | none => rfl
      | some tr =>
        exfalso
        rcases hw.inQueue (i, tr) (sLookup_mem hl) with hX | ⟨t, ht⟩
        · simp at hX
        · exact hmem (List.mem_map.mpr ⟨(t, i), ht, rfl⟩)
    exact ⟨hl, cancelOp_stale s i hl⟩
  refine ⟨hstale, ?_⟩
  intro fuel s s' hrun hw
  have RD := runAux_drain fuel s s' hrun hw
  have hstore : s'.store = [] := by
    rw [List.eq_nil_iff_forall_not_mem]
    intro q hq
    rcases RD.wf'.inQueue q hq with hX | ⟨t, ht⟩
    · simp at hX
    · rw [RD.heapNil] at ht
      simp at ht
  refine ⟨hstore, ?_⟩
  intro i
  have hl : sLookup s'.store i = none := by
    rw [hstore]
    rfl
  exact ⟨hl, cancelOp_stale s' i hl⟩

theorem C10_weak_handles_witness :
    upgradeH (mkTimeline [((1:ℤ), Act.done)]) 5 = none ∧
    cancelOp (mkTimeline [((1:ℤ), Act.done)]) 5 = mkTimeline [((1:ℤ), Act.done)] :=
  C10_weak_handles.1 (mkTimeline [((1:ℤ), Act.done)]) 5 (WFq_mkTimeline _) (by decide)

/-- C9 (counterexample): `Trigger`'s `Ord::cmp` is partial exactly on NaN
(`trigCmpO` is `none`, modelling the `unwrap` panic), but the queue never calls
it: `BinaryHeap`'s sift routines compare with the `<=` operator, i.e. the default
`PartialOrd::le`, which simply returns `false` when `partial_cmp` is `None`.
Placing a NaN-timed entry in the queue next to another entry therefore does NOT
panic: push and pop complete normally — indeed the NaN entry pops before a finite
entry with the minimal time, so what NaN destroys is the ordering guarantee, not
totality. -/
theorem C9_counterexample :
    trigCmpO ((FTime.nan : FTime ℤ), 1) (FTime.fin 1, 0) = none ∧
    heapPush ((FTime.fin (0:ℤ)), 0) trigLeF [((FTime.fin (1:ℤ)), 0)] (FTime.nan, 1) =
      [(FTime.nan, 1), (FTime.fin 1, 0)] ∧
    heapPop ((FTime.fin (0:ℤ)), 0) trigLeF [(FTime.nan, 1), (FTime.fin 1, 0)] =
      some ((FTime.nan, 1), [(FTime.fin 1, 0)]) := by decide

/-- C9 (amended): the `unwrap` inside `Ord::cmp` panics exactly when one of the
two compared due times is NaN, and NaN is absorbing for the due-time addition
performed by `schedule`; but the queue operations themselves are total even with
NaN entries present — `push` always grows the heap by one and `pop` on a nonempty
heap always returns an entry — because the sift routines compare via
`PartialOrd::le`, not `Ord::cmp`; and on NaN-free entries that comparison
coincides with the total comparison `trLe` of the main model, so all ordering
guarantees proved there apply to the NaN-free fragment. -/
theorem C9_nan {T : Type} [LinearOrderedAddCommGroup T] :
    (∀ a b : FTime T × ℕ, trigCmpO a b = none ↔ a.1 = FTime.nan ∨ b.1 = FTime.nan) ∧
    (∀ t : FTime T, fAdd t FTime.nan = FTime.nan ∧ fAdd FTime.nan t = FTime.nan) ∧
    (∀ (l : List (FTime T × ℕ)) (x : FTime T × ℕ),
      (heapPush (FTime.fin 0, 0) trigLeF l x).length = l.length + 1) ∧
    (∀ l : List (FTime T × ℕ), l ≠ [] →
      ∃ r, heapPop (FTime.fin 0, 0) trigLeF l = some r) ∧
    (∀ a b : T × ℕ, trigLeF (FTime.fin a.1, a.2) (FTime.fin b.1, b.2) = trLe a b) := by
  refine ⟨?_, ?_, ?_, ?_, ?_⟩
  · rintro ⟨ta, ia⟩ ⟨tb, ib⟩
    cases ta <;> cases tb <;> simp [trigCmpO, trigPcmp, fPcmp]
  · intro t
    cases t <;> exact ⟨rfl, rfl⟩
  · intro l x
    have h := (heapPush_perm (FTime.fin (0:T), 0) trigLeF l x).length_eq
    simpa using h
  · intro l hne
    cases hp : heapPop (FTime.fin (0:T), 0) trigLeF l with
    | none => exact absurd ((heapPop_eq_none_iff _ _ _).mp hp) hne
    | some r => exact ⟨r, rfl⟩
  · intro a b
    simp only [trigLeF, trigPcmp, fPcmp, trLe]
    rcases lt_trichotomy b.1 a.1 with h | h | h
    · rw [compare_lt_iff_lt.mpr h]
      simp [le_of_lt h]
    · rw [compare_eq_iff_eq.mpr h]
      simp [le_of_eq h]
    · rw [compare_gt_iff_gt.mpr h]
      simp [not_le.mpr h]

theorem C9_nan_witness :
    ∃ r, heapPop ((FTime.fin (0:ℤ)), 0) trigLeF
      [((FTime.nan : FTime ℤ), 1), (FTime.fin 1, 0)] = some r :=
  C9_nan.2.2.2.1 [((FTime.nan : FTime ℤ), 1), (FTime.fin 1, 0)] (by decide)

-- Sanity checks of the model against the repository's own tests (`ordering`,
-- `nested_schedule`) and the spec's scenario section, at `T := ℤ`.
example :
    Option.map (fun s => (s.executed, s.time))
      (runAux 5 (mkTimeline [((3:ℤ), .done), (1, .done), (2, .done)])) =
    some ([(1, 1), (2, 2), (3, 0)], 3) := by decide

example :
    Option.map (fun s => (s.executed, s.time))
      (runAux 5 (mkTimeline [((1:ℤ), .sched 1 .done .done)])) =
    some ([(1, 0), (2, 1)], 2) := by decide

example :
    Option.map (fun s => (s.executed, s.discarded, s.time))
      (runAux 5 (cancelOp (mkTimeline [((2:ℤ), .done)]) 0)) =
    some ([], [(2, 0)], 0) := by decide
